import Mathlib

/-!
Shallow embedding of the lecture-hall timetable checker (`src/app.py`).

The program loads a CSV into a pandas DataFrame, normalizes the recognized
columns (`Day`, `Time`, `Lecture Hall`, `Course Code`), and answers three
queries over it: free/occupied halls for a (day, time) query, double-booking
conflicts, and hall-usage statistics.

Modelling conventions:
* A pandas cell is `Cell := Option String`; `none` models `NaN`/missing.
  All scalar cell values are modelled as strings (the program only ever
  treats them as strings: `str(...)`, `.astype(str)`, string grouping keys).
* A DataFrame is a `Frame`: presence flags for the four recognized columns
  plus the list of rows.  Accessing a missing column (`df["Day"]`) raises
  `KeyError` in Python; fallible operations therefore return `Except PyErr`.
* Python string operations are embedded over `List Char` for basic-latin
  text: `str.strip`, `str.title`, `str.upper`, `re.sub("\\s+", " ", ...)`,
  `str.replace`.
* `Series.str.contains(pat, case=False, na=False)` uses `regex=True` by
  default, i.e. `re.search` with `re.IGNORECASE`.  The regex dialect is
  modelled on the subset of patterns made of literal characters and the
  metacharacter `.` (match any character except newline); `compilePat`
  returns `none` for patterns outside this subset.
* `DataFrame.groupby` (default `dropna=True`) drops groups whose key
  contains a null; `Series.value_counts()` counts non-null values in
  first-occurrence order and sorts by descending count (ties keep their
  counting order); `groupby(sort=True)` sorts group keys ascending.
-/

/-- A pandas cell: `none` models `NaN`/missing. -/

abbrev Cell := Option String

/-- Python `str(x)` as applied to a cell: `str(nan) = "nan"`. -/

def cellStr : Cell → String
  | none => "nan"
  | some s => s

/-- Python `str.strip` of the front of a character list. -/

def stripFront (l : List Char) : List Char := l.dropWhile Char.isWhitespace

/-- Python `str.strip` of the back of a character list. -/

def stripBack (l : List Char) : List Char :=
  (l.reverse.dropWhile Char.isWhitespace).reverse

/-- Python `str.strip` (leading and trailing whitespace removed). -/

def stripChars (l : List Char) : List Char := stripBack (stripFront l)

/-- Python `str.strip` on strings. -/

def pyStrip (s : String) : String := String.mk (stripChars s.data)

/-- Helper for Python `str.title`: the flag records whether the previous
character was alphabetic. -/

def titleAux : Bool → List Char → List Char
  | _, [] => []
  | prevAlpha, c :: cs =>
    (if c.isAlpha then (if prevAlpha then c.toLower else c.toUpper) else c)
      :: titleAux c.isAlpha cs

/-- Python `str.title`: uppercase each alphabetic character that follows a
non-alphabetic one, lowercase the other alphabetic characters. -/

def pyTitle (s : String) : String := String.mk (titleAux false s.data)

/-- Python `str.upper` (basic latin). -/

def pyUpper (l : List Char) : List Char := l.map Char.toUpper

/-- Helper for `re.sub(r"\s+", " ", ...)`: the flag records whether we are
inside a whitespace run (whose first character already emitted one space). -/

def collapseWsAux : Bool → List Char → List Char
  | _, [] => []
  | inWs, c :: cs =>
    if c.isWhitespace then
      if inWs then collapseWsAux true cs else ' ' :: collapseWsAux true cs
    else c :: collapseWsAux false cs

/-- Python `re.sub(r"\s+", " ", s)`: every maximal whitespace run becomes a
single space. -/

def collapseWs (l : List Char) : List Char := collapseWsAux false l

/-- Python `str.replace(pat, rep)`: replace every occurrence of `pat`,
scanning left to right, non-overlapping.  (The program only uses non-empty
patterns; for an empty pattern the scan just keeps the string.) -/

def replaceAll (pat rep : List Char) : List Char → List Char
  | [] => []
  | c :: cs =>
    if h : pat ≠ [] ∧ pat.isPrefixOf (c :: cs) = true then
      rep ++ replaceAll pat rep ((c :: cs).drop pat.length)
    else
      c :: replaceAll pat rep cs
  termination_by l => l.length
  decreasing_by
    · simp only [List.length_drop]
      cases pat with
      | nil => exact absurd rfl h.1
      | cons p ps => simp only [List.length_cons]; omega
    · simp only [List.length_cons]; omega

/-- The hall-name cleaning pipeline of `clean_hall_name` on characters:
uppercase, collapse whitespace runs, drop the space after `(` and before
`)`, merge `"A B"` to `"AB"` and `"E B"` to `"EB"`, then strip. -/

def cleanChars (l : List Char) : List Char :=
  stripChars
    (replaceAll ['E', ' ', 'B'] ['E', 'B']
      (replaceAll ['A', ' ', 'B'] ['A', 'B']
        (replaceAll [' ', ')'] [')']
          (replaceAll ['(', ' '] ['(']
            (collapseWs (pyUpper l))))))

/-- `clean_hall_name` from `load_timetable` (src/app.py lines 36-43):
`NaN` stays `None`; otherwise `str(name).upper()`, whitespace collapsed,
paren-spacing removed, `"A B"`/`"E B"` merged, and the result stripped. -/

def clean_hall_name : Cell → Cell
  | none => none
  | some s => some (String.mk (cleanChars s.data))

/-- One raw CSV row, restricted to the cells of the four recognized columns
(other columns are passed through unchanged by the program and never affect
the queries under study). -/

structure RawRow where
  day : Cell
  time : Cell
  hall : Cell
  course : Cell

deriving DecidableEq, Repr

/-- A raw CSV table: the header names plus the rows. -/

structure RawFrame where
  colNames : List String
  rows : List RawRow

deriving DecidableEq, Repr

/-- Column-name normalization `df.columns.str.strip().str.title()`. -/

def normColName (s : String) : String := pyTitle (pyStrip s)

/-- Membership of a recognized column after header normalization. -/

def RawFrame.hasColumn (f : RawFrame) (c : String) : Bool :=
  (f.colNames.map normColName).contains c

/-- A normalized timetable row. -/

structure Row where
  day : Cell
  time : Cell
  hall : Cell
  course : Cell

deriving DecidableEq, Repr

/-- A loaded DataFrame: presence flags for the recognized columns and the
rows.  `df.empty` corresponds to `rows = []` (a frame read from CSV has
columns whenever it has rows, and `pd.DataFrame()` has neither). -/

structure Frame where
  hasDay : Bool
  hasTime : Bool
  hasHall : Bool
  hasCourse : Bool
  rows : List Row

deriving DecidableEq, Repr

/-- The empty DataFrame `pd.DataFrame()` returned when no timetable has been
loaded. -/

def emptyFrame : Frame := ⟨false, false, false, false, []⟩

/-- `load_timetable` (src/app.py lines 27-54) applied to a parsed CSV:
normalize the headers, then clean `Lecture Hall` with `clean_hall_name`,
and apply `.astype(str).str.strip().str.title()` to `Day` and
`.astype(str).str.strip()` to `Time` when those columns exist. -/

def load_timetable (f : RawFrame) : Frame :=
  let hd := f.hasColumn "Day"
  let ht := f.hasColumn "Time"
  let hh := f.hasColumn "Lecture Hall"
  let hc := f.hasColumn "Course Code"
  ⟨hd, ht, hh, hc,
    f.rows.map fun r =>
      ⟨if hd then some (pyTitle (pyStrip (cellStr r.day))) else r.day,
        if ht then some (pyStrip (cellStr r.time)) else r.time,
        if hh then clean_hall_name r.hall else r.hall,
        r.course⟩⟩

/-- Errors the Python queries can raise: a `KeyError` for a missing column,
or a time pattern outside the modelled regex subset (Python interprets such
a pattern as a regex operator or raises `re.error`). -/

inductive PyErr
  | keyError (col : String)
  | patternUnsupported

deriving DecidableEq, Repr

/-- A token of the modelled regex subset. -/

inductive RTok
  | lit (c : Char)
  | dot

deriving DecidableEq, Repr

/-- Characters that are special in a Python regular expression (outside
character classes), other than `.` which the model supports. -/

def isMetaChar (c : Char) : Bool :=
  c = '\\' || c = '^' || c = '$' || c = '*' || c = '+' || c = '?' ||
  c = '{' || c = '}' || c = '[' || c = ']' || c = '|' || c = '(' || c = ')'

/-- Compile a pattern string into the modelled regex subset: literal
characters and `.`.  Returns `none` on any other metacharacter. -/

def compilePat : List Char → Option (List RTok)
  | [] => some []
  | c :: cs =>
    if c = '.' then (compilePat cs).map (fun ts => RTok.dot :: ts)
    else if isMetaChar c then none
    else (compilePat cs).map (fun ts => RTok.lit c :: ts)

/-- One regex token against one character, under `re.IGNORECASE` (modelled
by lowercasing both sides; `.` matches anything but a newline). -/

def tokMatch : RTok → Char → Bool
  | RTok.lit c, x => c.toLower = x.toLower
  | RTok.dot, x => x ≠ '\n'

/-- Does the token list match a prefix of the character list? -/

def matchHere : List RTok → List Char → Bool
  | [], _ => true
  | _ :: _, [] => false
  | t :: ts, c :: cs => tokMatch t c && matchHere ts cs

/-- Python `re.search`: does the token list match anywhere in the string? -/

def reSearch (ts : List RTok) : List Char → Bool
  | [] => matchHere ts []
  | c :: cs => matchHere ts (c :: cs) || reSearch ts cs

/-- One element of `Series.str.contains(pat, case=False, na=False)`:
`NaN` gives `False` (`na=False`). -/

def timeMatches (ts : List RTok) : Cell → Bool
  | none => false
  | some s => reSearch ts s.data

/-- Code-point comparison of character lists, Python's `<` on strings. -/

def charListLt : List Char → List Char → Bool
  | [], [] => false
  | [], _ :: _ => true
  | _ :: _, [] => false
  | a :: as, b :: bs =>
    decide (a.toNat < b.toNat) || (a.toNat == b.toNat && charListLt as bs)

/-- Python string `<` (code-point lexicographic). -/

def strLtB (a b : String) : Bool := charListLt a.data b.data

/-- Python string `<=` (code-point lexicographic). -/

def strLeB (a b : String) : Bool := !(strLtB b a)

/-- Python `sorted(set(l))` for strings: distinct values in ascending
lexicographic order. -/

def dedupSort (l : List String) : List String :=
  List.insertionSort (fun a b => strLeB a b = true) l.dedup

/-- The non-null `Lecture Hall` values of a frame, in row order. -/

def Frame.halls (df : Frame) : List String := df.rows.filterMap Row.hall

/-- `get_free_halls` (src/app.py lines 57-69).  Empty frame: both lists
empty.  Otherwise the query day is normalized with `.strip().title()`, the
query time with `.strip()`; `df["Day"]`/`df["Time"]`/`df["Lecture Hall"]`
raise `KeyError` when missing; a row is occupied when its day equals the
normalized query day and its time matches the query pattern
case-insensitively; occupied halls are the sorted distinct non-null halls of
those rows, and the free halls are all distinct halls minus the occupied
ones. -/

def get_free_halls (df : Frame) (day time : String) :
    Except PyErr (List String × List String) :=
  if df.rows.isEmpty then .ok ([], [])
  else
    let d := pyTitle (pyStrip day)
    let t := pyStrip time
    if !df.hasDay then .error (.keyError "Day")
    else if !df.hasTime then .error (.keyError "Time")
    else
      match compilePat t.data with
      | none => .error .patternUnsupported
      | some pat =>
        if !df.hasHall then .error (.keyError "Lecture Hall")
        else
          let occRows := df.rows.filter fun r =>
            decide (r.day = some d) && timeMatches pat r.time
          let occupied_halls := dedupSort (occRows.filterMap Row.hall)
          let all_halls := dedupSort df.halls
          let free_halls :=
            dedupSort (all_halls.filter fun h => !occupied_halls.contains h)
          .ok (free_halls, occupied_halls)

/-- The `(Day, Time, Lecture Hall)` grouping key of a row; `none` when any
of the three cells is null (`groupby` drops such rows: `dropna=True`). -/

def Row.key (r : Row) : Option (String × String × String) :=
  match r.day, r.time, r.hall with
  | some d, some t, some h => some (d, t, h)
  | _, _, _ => none

/-- Lexicographic order on grouping keys (Python tuple comparison), used by
`groupby(sort=True)`. -/

def tripleLeB (a b : String × String × String) : Bool :=
  strLtB a.1 b.1 ||
    (a.1 == b.1 && (strLtB a.2.1 b.2.1 || (a.2.1 == b.2.1 && strLeB a.2.2 b.2.2)))

/-- The distinct grouping keys of a frame, sorted ascending. -/

def groupKeys (df : Frame) : List (String × String × String) :=
  List.insertionSort (fun a b => tripleLeB a b = true) (df.rows.filterMap Row.key).dedup

/-- The number of rows of the frame carrying a given grouping key
(`groupby(...).size()`). -/

def keyCount (df : Frame) (k : String × String × String) : Nat :=
  (df.rows.filterMap Row.key).count k

/-- The grouping keys with more than one row (`conflicts["Count"] > 1`). -/

def conflictKeys (df : Frame) : List (String × String × String) :=
  (groupKeys df).filter fun k => decide (1 < keyCount df k)

/-- One record of the conflict report. -/

structure ConflictEntry where
  day : String
  time : String
  hall : String
  courses : List Cell

deriving DecidableEq, Repr

/-- The conflict report built by the merge-and-regroup step: for every
conflicted key, the `Course Code` cells of its rows in original row order
(the inner merge preserves the left frame's order). -/

def conflictEntries (df : Frame) : List ConflictEntry :=
  (conflictKeys df).map fun k =>
    ⟨k.1, k.2.1, k.2.2,
      (df.rows.filter fun r => decide (r.key = some k)).map Row.course⟩

/-- `detect_conflicts` (src/app.py lines 72-90).  Empty frame: empty report.
`groupby(["Day", "Time", "Lecture Hall"])` raises `KeyError` on a missing
key column; null-keyed rows are dropped (`dropna=True`); when no key has
more than one row the report is empty (before `Course Code` is touched);
otherwise the report lists each conflicted key with its course codes. -/

def detect_conflicts (df : Frame) : Except PyErr (List ConflictEntry) :=
  if df.rows.isEmpty then .ok []
  else if !df.hasDay then .error (.keyError "Day")
  else if !df.hasTime then .error (.keyError "Time")
  else if !df.hasHall then .error (.keyError "Lecture Hall")
  else if (conflictKeys df).isEmpty then .ok []
  else if !df.hasCourse then .error (.keyError "Course Code")
  else .ok (conflictEntries df)

/-- Descending-count order on `(hall, count)` pairs. -/

def countDesc (a b : String × Nat) : Prop := b.2 ≤ a.2

instance : DecidableRel countDesc := fun a b => by
  unfold countDesc; exact inferInstance

/-- `Series.value_counts()` (default `dropna=True`): count the non-null
values in first-occurrence order, then sort by descending count; ties keep
the counting order (the observed stable behavior of value_counts on ties,
which is first occurrence, not alphabetical). -/

def value_counts (l : List String) : List (String × Nat) :=
  List.insertionSort countDesc (l.dedup.map fun h => (h, l.count h))

/-- `chart_data` (src/app.py lines 196-205): the labels/values arrays served
to the chart; empty or hall-less frames give two empty arrays. -/

def chart_data (df : Frame) : List String × List Nat :=
  if df.rows.isEmpty || !df.hasHall then ([], [])
  else
    let counts := value_counts df.halls
    (counts.map Prod.fst, counts.map Prod.snd)

/-- The summary statistics of the index route. -/

structure Stats where
  total_courses : Nat
  total_halls : Nat
  most_used : String
  least_used : String

deriving DecidableEq, Repr

/-- The largest per-hall occurrence count of a list of halls. -/

def maxHallCount (l : List String) : Nat :=
  (l.map fun h => l.count h).foldr max 0

/-- `df["Lecture Hall"].mode()[0]`: pandas `mode` lists the values of
maximal count sorted ascending; taking `[0]` picks the smallest. -/

def modeHead (l : List String) : String :=
  ((dedupSort (l.filter fun h => decide (l.count h = maxHallCount l))).head?).getD "N/A"

/-- The smallest per-hall occurrence count among the distinct halls. -/

def minHallCount (l : List String) : Nat :=
  (l.map fun h => l.count h).foldr min (l.length + 1)

/-- `df["Lecture Hall"].value_counts().idxmin()`: the first index of the
series attaining the minimal count, in value_counts order. -/

def idxminHall (l : List String) : String :=
  (((value_counts l).find? fun p => decide (p.2 = minHallCount l)).map Prod.fst).getD "N/A"

/-- The statistics block of the index route (src/app.py lines 132-138):
`total_courses = len(df)`; `total_halls = nunique` of the halls when the
column exists, else `0`; `most_used`/`least_used` are `"N/A"` sentinels when
`total_halls == 0`. -/

def index_stats (df : Frame) : Stats :=
  let tc := df.rows.length
  let th := if df.hasHall then df.halls.dedup.length else 0
  ⟨tc, th,
    if 0 < th then modeHead df.halls else "N/A",
    if 0 < th then idxminHall df.halls else "N/A"⟩

/-- The day dropdown of the index route:
`sorted(df["Day"].dropna().unique())` when the column exists, else `[]`. -/

def dayOptions (df : Frame) : List String :=
  if df.hasDay then dedupSort (df.rows.filterMap Row.day) else []

/-- The time dropdown of the index route:
`sorted(df["Time"].dropna().unique())` when the column exists, else `[]`. -/

def timeOptions (df : Frame) : List String :=
  if df.hasTime then dedupSort (df.rows.filterMap Row.time) else []

/-- Append one record to the dataset (one more CSV row). -/

def Frame.addRow (df : Frame) (r : Row) : Frame :=
  ⟨df.hasDay, df.hasTime, df.hasHall, df.hasCourse, df.rows ++ [r]⟩

/-- Case-insensitive plain substring containment, the matching rule the
specification describes for time queries. -/

def substrCI (needle hay : String) : Prop :=
  needle.data.map Char.toLower <:+: hay.data.map Char.toLower

instance : ∀ n h, Decidable (substrCI n h) := fun n h =>
  inferInstanceAs (Decidable (_ <:+: _))

/-- A query string free of every Python regex metacharacter (including the
dot). -/

def metaFree (s : String) : Prop :=
  ∀ c ∈ s.data, isMetaChar c = false ∧ c ≠ '.'

instance : ∀ s, Decidable (metaFree s) := fun s => by
  unfold metaFree; exact inferInstance

def NoLow (l : List Char) : Prop := ∀ c ∈ l, c.toUpper = c

def SpOnly (l : List Char) : Prop := ∀ c ∈ l, c.isWhitespace = true → c = ' '

def NoDbl (l : List Char) : Prop := ¬ [' ', ' '] <:+: l

def slotCount (df : Frame) (d t h : String) : Nat :=
  df.rows.countP fun r => decide (r.day = some d ∧ r.time = some t ∧ r.hall = some h)

def slotCourses (df : Frame) (d t h : String) : List Cell :=
  (df.rows.filter fun r =>
    decide (r.day = some d ∧ r.time = some t ∧ r.hall = some h)).map Row.course

def findEntry (res : List ConflictEntry) (d t h : String) : Option ConflictEntry :=
  res.find? fun e => decide (e.day = d ∧ e.time = t ∧ e.hall = h)

def allHalls (df : Frame) : List String := dedupSort df.halls

instance : IsTotal (String × Nat) countDesc := ⟨fun a b => le_total b.2 a.2⟩

instance : IsTrans (String × Nat) countDesc := ⟨fun _ _ _ hab hbc => le_trans hbc hab⟩

instance {ε α : Type} [DecidableEq ε] [DecidableEq α] :
    DecidableEq (Except ε α) := fun a b =>
  match a, b with
  | .error x, .error y =>
    if h : x = y then isTrue (by rw [h]) else isFalse fun hc => h (by injection hc)
  | .error _, .ok _ => isFalse fun hc => Except.noConfusion hc
  | .ok _, .error _ => isFalse fun hc => Except.noConfusion hc
  | .ok x, .ok y =>
    if h : x = y then isTrue (by rw [h]) else isFalse fun hc => h (by injection hc)

def exRowA : Row := ⟨some "Mon", some "1x3", some "A", some "C1"⟩

def exFrameC2 : Frame := ⟨true, true, true, true, [exRowA]⟩

def exFrameC1 : Frame := ⟨true, true, true, true,
  [⟨some "Mon", some "9", none, some "CS1"⟩, ⟨some "Mon", some "9", none, some "CS2"⟩]⟩

def exFrameC4 : Frame := ⟨true, true, true, true,
  [⟨some "Mon", some "9", some "A", some "CS1"⟩, ⟨some "Mon", some "9", some "A", some "CS1"⟩]⟩

def exFrameC7 : Frame := ⟨true, true, true, true, [⟨some "Mon", some "9", none, some "CS1"⟩]⟩

def exRowC7 : Row := ⟨some "Mon", some "9", none, some "CS2"⟩

def exFrameC7w : Frame := ⟨true, true, true, true,
  [⟨some "Mon", some "9", some "A", some "CS1"⟩]⟩

def exRowC7w : Row := ⟨some "Mon", some "9", some "A", some "CS2"⟩

def exFrameC8 : Frame := ⟨true, true, true, true,
  [⟨some "Mon", some "9", some "B", some "C1"⟩,
   ⟨some "Mon", some "10", some "A", some "C2"⟩]⟩

def exFrameW : Frame := ⟨true, true, true, true,
  [⟨some "Mon", some "9-10", some "AB", some "CS101"⟩,
   ⟨some "Mon", some "9-10", some "AB", some "CS102"⟩,
   ⟨some "Mon", some "9-10", some "EB", some "CS103"⟩]⟩

def exRawC3 : RawFrame := ⟨["Time", "Lecture Hall", "Course Code"],
  [⟨none, some "9", some "A", some "C"⟩]⟩

def exFrameNoHall : Frame := ⟨true, true, false, true,
  [⟨some "Mon", some "9", some "A", some "C"⟩]⟩

def exRawC10 : RawFrame := ⟨["Day", "Time", "Lecture Hall", "Course Code"],
  [⟨none, none, some "A", some "C"⟩]⟩

/-- C6: hall-name canonicalization is idempotent: cleaning an
already-cleaned hall value yields the same value. -/

theorem prefOf_iff {pat l : List Char} : pat.isPrefixOf l = true ↔ pat <+: l :=
  List.isPrefixOf_iff_prefix

theorem replaceAll_nil (pat rep : List Char) : replaceAll pat rep [] = [] := by
  rw [replaceAll]

theorem replaceAll_cons (pat rep : List Char) (c : Char) (cs : List Char) :
    replaceAll pat rep (c :: cs) =
      if pat ≠ [] ∧ pat.isPrefixOf (c :: cs) = true then
        rep ++ replaceAll pat rep ((c :: cs).drop pat.length)
      else c :: replaceAll pat rep cs := by
  rw [replaceAll]
  split
  · rfl
  · rfl

theorem replaceAll_eq_self {pat rep : List Char} : ∀ {l : List Char},
    ¬ pat <:+: l → replaceAll pat rep l = l := by
  intro l
  induction l using replaceAll.induct pat rep with
  | case1 => intro _; rw [replaceAll]
  | case2 c cs h ih =>
    intro hni
    exact absurd (prefOf_iff.mp h.2).isInfix hni
  | case3 c cs h ih =>
    intro hni
    rw [replaceAll, dif_neg h, ih fun hi => hni (List.infix_cons hi)]

theorem mem_replaceAll {pat rep : List Char} {a : Char} : ∀ {l : List Char},
    a ∈ replaceAll pat rep l → a ∈ l ∨ a ∈ rep := by
  intro l
  induction l using replaceAll.induct pat rep with
  | case1 => intro hm; rw [replaceAll] at hm; exact absurd hm (List.not_mem_nil a)
  | case2 c cs h ih =>
    intro hm
    rw [replaceAll, dif_pos h] at hm
    rcases List.mem_append.mp hm with hr | hm2
    · exact Or.inr hr
    · rcases ih hm2 with hl | hr
      · exact Or.inl (List.drop_subset _ _ hl)
      · exact Or.inr hr
  | case3 c cs h ih =>
    intro hm
    rw [replaceAll, dif_neg h] at hm
    rcases List.mem_cons.mp hm with he | hm2
    · exact Or.inl (he ▸ List.mem_cons_self a cs)
    · rcases ih hm2 with hl | hr
      · exact Or.inl (List.mem_cons_of_mem c hl)
      · exact Or.inr hr

theorem char_ofNat_toNat {n : Nat} (h : n < 55296) : (Char.ofNat n).toNat = n := by
  unfold Char.ofNat
  rw [dif_pos (Or.inl h)]
  rfl

theorem toUpper_toUpper (c : Char) : c.toUpper.toUpper = c.toUpper := by
  unfold Char.toUpper
  by_cases h : c.toNat ≥ 97 ∧ c.toNat ≤ 122
  · rw [if_pos h]
    have h1 : (Char.ofNat (c.toNat - 32)).toNat = c.toNat - 32 :=
      char_ofNat_toNat (by omega)
    rw [if_neg]
    rw [h1]
    omega
  · rw [if_neg h, if_neg h]

theorem spOnly_tail {c : Char} {l : List Char} (h : SpOnly (c :: l)) : SpOnly l :=
  fun a ha => h a (List.mem_cons_of_mem c ha)

theorem noDbl_of_infx {l m : List Char} (h : l <:+: m) (hm : NoDbl m) : NoDbl l :=
  fun hi => hm (hi.trans h)

theorem noDbl_tail {c : Char} {l : List Char} (h : NoDbl (c :: l)) : NoDbl l :=
  noDbl_of_infx (List.infix_cons (List.infix_refl l)) h

theorem collapse_head {l : List Char} {c : Char}
    (h : (collapseWsAux true l).head? = some c) : c.isWhitespace = false := by
  induction l with
  | nil => simp [collapseWsAux] at h
  | cons a as ih =>
    rw [collapseWsAux] at h
    by_cases hw : a.isWhitespace
    · rw [if_pos hw, if_pos rfl] at h
      exact ih h
    · rw [if_neg hw] at h
      simp only [List.head?_cons, Option.some.injEq] at h
      rw [← h]
      simp [hw]

theorem spOnly_collapse : ∀ (b : Bool) (l : List Char), SpOnly (collapseWsAux b l) := by
  intro b l
  induction l generalizing b with
  | nil => intro c hc; simp [collapseWsAux] at hc
  | cons a as ih =>
    intro c hc
    rw [collapseWsAux] at hc
    by_cases hw : a.isWhitespace
    · rw [if_pos hw] at hc
      cases b with
      | true => exact ih true c hc
      | false =>
        rw [if_neg Bool.false_ne_true] at hc
        rcases List.mem_cons.mp hc with he | hm
        · exact fun _ => he
        · exact ih true c hm
    · rw [if_neg hw] at hc
      rcases List.mem_cons.mp hc with he | hm
      · intro hcw; exact absurd (he ▸ hcw) (by simp [hw])
      · exact ih false c hm

theorem noDbl_collapse : ∀ (b : Bool) (l : List Char), NoDbl (collapseWsAux b l) := by
  intro b l
  induction l generalizing b with
  | nil => intro hc; rw [collapseWsAux] at hc; simp at hc
  | cons a as ih =>
    intro hc
    rw [collapseWsAux] at hc
    by_cases hw : a.isWhitespace
    · rw [if_pos hw] at hc
      cases b with
      | true => exact ih true hc
      | false =>
        rw [if_neg Bool.false_ne_true] at hc
        rcases List.infix_cons_iff.mp hc with hp | hi
        · -- [' ',' '] <+: ' ' :: collapseWsAux true as
          rw [List.cons_prefix_cons] at hp
          have h2 := hp.2
          cases hh : (collapseWsAux true as) with
          | nil => rw [hh] at h2; simp at h2
          | cons x xs =>
            rw [hh] at h2
            rw [List.cons_prefix_cons] at h2
            have : x.isWhitespace = false := collapse_head (by rw [hh]; rfl)
            rw [← h2.1] at this
            simp at this
        · exact ih true hi
    · rw [if_neg hw] at hc
      rcases List.infix_cons_iff.mp hc with hp | hi
      · rw [List.cons_prefix_cons] at hp
        exact absurd (hp.1 ▸ hw) (by simp)
      · exact ih false hi

theorem mem_collapse {c : Char} : ∀ {b : Bool} {l : List Char},
    c ∈ collapseWsAux b l → c = ' ' ∨ c ∈ l := by
  intro b l
  induction l generalizing b with
  | nil => intro h; rw [collapseWsAux] at h; simp at h
  | cons a as ih =>
    intro h
    rw [collapseWsAux] at h
    by_cases hw : a.isWhitespace
    · rw [if_pos hw] at h
      cases b with
      | true =>
        rcases ih h with he | hm
        · exact Or.inl he
        · exact Or.inr (List.mem_cons_of_mem a hm)
      | false =>
        rw [if_neg Bool.false_ne_true] at h
        rcases List.mem_cons.mp h with he | hm
        · exact Or.inl he
        · rcases ih hm with he | hm2
          · exact Or.inl he
          · exact Or.inr (List.mem_cons_of_mem a hm2)
    · rw [if_neg hw] at h
      rcases List.mem_cons.mp h with he | hm
      · exact Or.inr (he ▸ List.mem_cons_self a as)
      · rcases ih hm with he | hm2
        · exact Or.inl he
        · exact Or.inr (List.mem_cons_of_mem a hm2)

theorem head_mem_of_head? {c : Char} : ∀ {l : List Char}, l.head? = some c → c ∈ l := by
  intro l h
  cases l with
  | nil => simp at h
  | cons a as =>
    simp only [List.head?_cons, Option.some.injEq] at h
    exact h ▸ List.mem_cons_self a as

theorem collapse_fix : ∀ (l : List Char), SpOnly l → NoDbl l →
    collapseWsAux false l = l ∧
      ((∀ c, l.head? = some c → c.isWhitespace = false) → collapseWsAux true l = l) := by
  intro l
  induction l with
  | nil => exact fun _ _ => ⟨by rw [collapseWsAux], fun _ => by rw [collapseWsAux]⟩
  | cons a as ih =>
    intro hsp hnd
    have IH := ih (spOnly_tail hsp) (noDbl_tail hnd)
    constructor
    · rw [collapseWsAux]
      by_cases hw : a.isWhitespace
      · have ha : a = ' ' := hsp a (List.mem_cons_self a as) hw
        rw [if_pos hw, if_neg Bool.false_ne_true]
        have htrue : collapseWsAux true as = as := by
          apply IH.2
          intro c hc
          cases hcw : c.isWhitespace with
          | false => rfl
          | true =>
          exfalso
          have hc' : c = ' ' := spOnly_tail hsp c (head_mem_of_head? hc) hcw
          apply hnd
          apply List.IsPrefix.isInfix
          cases as with
          | nil => simp at hc
          | cons x xs =>
            simp only [List.head?_cons, Option.some.injEq] at hc
            rw [List.cons_prefix_cons]
            refine ⟨ha.symm, ?_⟩
            rw [List.cons_prefix_cons]
            exact ⟨(hc ▸ hc').symm, List.nil_prefix⟩
        rw [htrue, ha]
      · rw [if_neg hw, IH.1]
    · intro hhead
      rw [collapseWsAux]
      by_cases hw : a.isWhitespace
      · exact absurd (hhead a rfl) (by simp [hw])
      · rw [if_neg hw, IH.1]

theorem collapse_eq_self {l : List Char} (h1 : SpOnly l) (h2 : NoDbl l) :
    collapseWs l = l := (collapse_fix l h1 h2).1

theorem dropWhile_dw (p : Char → Bool) : ∀ l : List Char,
    List.dropWhile p (List.dropWhile p l) = List.dropWhile p l := by
  intro l
  induction l with
  | nil => rfl
  | cons a as ih =>
    rw [List.dropWhile_cons]
    by_cases hp : p a = true
    · rw [if_pos hp]; exact ih
    · rw [if_neg hp, List.dropWhile_cons, if_neg hp]

theorem front_nonws {l : List Char} {c : Char} (h : (stripFront l).head? = some c) :
    c.isWhitespace = false := by
  induction l with
  | nil => simp [stripFront] at h
  | cons a as ih =>
    rw [stripFront, List.dropWhile_cons] at h
    by_cases hw : a.isWhitespace
    · rw [if_pos hw] at h; exact ih h
    · rw [if_neg hw] at h
      simp only [List.head?_cons, Option.some.injEq] at h
      rw [← h]
      simp [hw]

theorem stripFront_eq_self_of_head {l : List Char}
    (h : ∀ c, l.head? = some c → c.isWhitespace = false) : stripFront l = l := by
  cases l with
  | nil => rfl
  | cons a as =>
    rw [stripFront, List.dropWhile_cons, if_neg]
    simp [h a rfl]

theorem stripBack_pref (l : List Char) : stripBack l <+: l := by
  have h1 : l.reverse.dropWhile Char.isWhitespace <:+ l.reverse :=
    List.dropWhile_suffix _
  have h2 : ((l.reverse.dropWhile Char.isWhitespace).reverse).reverse <:+ l.reverse := by
    rw [List.reverse_reverse]; exact h1
  exact List.reverse_suffix.mp h2

theorem stripBack_idem (l : List Char) : stripBack (stripBack l) = stripBack l := by
  unfold stripBack
  rw [List.reverse_reverse, dropWhile_dw]

theorem pref_head? {p l : List Char} {c : Char} (hp : p <+: l) (hh : p.head? = some c) :
    l.head? = some c := by
  obtain ⟨t, ht⟩ := hp
  cases p with
  | nil => simp at hh
  | cons x xs =>
    simp only [List.head?_cons, Option.some.injEq] at hh
    rw [← ht]
    simp [hh]

theorem stripChars_idem (l : List Char) : stripChars (stripChars l) = stripChars l := by
  rw [stripChars, stripChars]
  have hfix : stripFront (stripBack (stripFront l)) = stripBack (stripFront l) := by
    apply stripFront_eq_self_of_head
    intro c hc
    exact front_nonws (pref_head? (stripBack_pref (stripFront l)) hc)
  rw [hfix, stripBack_idem]

theorem stripChars_infx (l : List Char) : stripChars l <:+: l := by
  rw [stripChars]
  exact (stripBack_pref (stripFront l)).isInfix.trans
    (List.dropWhile_suffix Char.isWhitespace).isInfix

theorem map_eq_self {f : Char → Char} : ∀ {l : List Char},
    (∀ c ∈ l, f c = c) → l.map f = l := by
  intro l h
  induction l with
  | nil => rfl
  | cons a as ih =>
    rw [List.map_cons, h a (List.mem_cons_self a as),
      ih fun c hc => h c (List.mem_cons_of_mem a hc)]

theorem noLow_pyUpper (l : List Char) : NoLow (pyUpper l) := by
  intro c hc
  obtain ⟨d, _, hd⟩ := List.mem_map.mp hc
  rw [← hd, toUpper_toUpper]

theorem pyUpper_eq_self {l : List Char} (h : NoLow l) : pyUpper l = l := map_eq_self h

theorem singleton_pref {a : Char} {l : List Char} : [a] <+: l ↔ ∃ t, l = a :: t := by
  constructor
  · intro ⟨t, ht⟩
    exact ⟨t, ht.symm⟩
  · intro ⟨t, ht⟩
    exact ⟨t, ht.symm⟩

theorem head?_decomp {a : Char} {l : List Char} (h : l.head? = some a) :
    ∃ t, l = a :: t := by
  cases l with
  | nil => simp at h
  | cons x xs =>
    simp only [List.head?_cons, Option.some.injEq] at h
    exact ⟨xs, by rw [h]⟩

theorem drop_infx (n : Nat) (l : List Char) : l.drop n <:+: l :=
  (List.drop_suffix n l).isInfix

theorem not_infx_tail {q : List Char} {c : Char} {cs : List Char}
    (h : ¬ q <:+: (c :: cs)) : ¬ q <:+: cs := fun hi => h (List.infix_cons hi)

theorem not_infx_drop {q l : List Char} (n : Nat) (h : ¬ q <:+: l) :
    ¬ q <:+: l.drop n := fun hi => h (hi.trans (drop_infx n l))

theorem head?_replaceAll {p0 r0 : Char} {prest rrest l : List Char} {c : Char}
    (h : (replaceAll (p0 :: prest) (r0 :: rrest) l).head? = some c) :
    l.head? = some c ∨ (c = r0 ∧ l.head? = some p0) := by
  cases l with
  | nil => rw [replaceAll_nil] at h; exact absurd h (by simp)
  | cons a as =>
    rw [replaceAll_cons] at h
    split at h
    next hbr =>
      have hpf := prefOf_iff.mp hbr.2
      rw [List.cons_prefix_cons] at hpf
      simp only [List.cons_append, List.head?_cons, Option.some.injEq] at h
      exact Or.inr ⟨h.symm, by rw [List.head?_cons, hpf.1]⟩
    next =>
      simp only [List.head?_cons, Option.some.injEq] at h
      exact Or.inl (by rw [List.head?_cons, h])

theorem two_infx_append {x y : Char} {a b : List Char}
    (h : [x, y] <:+: a ++ b) :
    [x, y] <:+: a ∨ [x, y] <:+: b ∨ (a.getLast? = some x ∧ b.head? = some y) := by
  induction a with
  | nil => exact Or.inr (Or.inl (by simpa using h))
  | cons c a' ih =>
    rw [List.cons_append] at h
    rcases List.infix_cons_iff.mp h with hp | hi
    · rw [List.cons_prefix_cons] at hp
      obtain ⟨hcx, hrest⟩ := hp
      cases a' with
      | nil =>
        obtain ⟨t, ht⟩ := singleton_pref.mp (by simpa using hrest)
        exact Or.inr (Or.inr ⟨by simp [hcx], by rw [ht]; rfl⟩)
      | cons d a'' =>
        rw [List.cons_append] at hrest
        obtain ⟨t, ht⟩ := singleton_pref.mp hrest
        have hd : d = y := by
          have := congrArg List.head? ht
          simpa using this
        left
        apply List.IsPrefix.isInfix
        rw [List.cons_prefix_cons]
        refine ⟨hcx, ?_⟩
        rw [List.cons_prefix_cons]
        exact ⟨hd.symm, List.nil_prefix⟩
    · rcases ih hi with h1 | h2 | h3
      · exact Or.inl (List.infix_cons h1)
      · exact Or.inr (Or.inl h2)
      · refine Or.inr (Or.inr ⟨?_, h3.2⟩)
        cases a' with
        | nil => simp at h3
        | cons d a'' => rw [List.getLast?_cons_cons]; exact h3.1

theorem noDbl_replaceAll {p0 r0 : Char} {prest rrest : List Char}
    (hrep : ∀ c ∈ r0 :: rrest, c ≠ ' ') :
    ∀ {l : List Char}, NoDbl l → NoDbl (replaceAll (p0 :: prest) (r0 :: rrest) l) := by
  intro l
  induction l using replaceAll.induct (p0 :: prest) (r0 :: rrest) with
  | case1 => intro _ hi; rw [replaceAll_nil] at hi; simp at hi
  | case2 c cs h ih =>
    intro hnd hi
    rw [replaceAll, dif_pos h] at hi
    rcases two_infx_append hi with h1 | h2 | h3
    · exact absurd (h1.subset (List.mem_cons_self ' ' [' ']))
        (fun hm => hrep ' ' hm rfl)
    · exact ih (noDbl_of_infx (drop_infx _ _) hnd) h2
    · obtain ⟨ys, hys⟩ := List.getLast?_eq_some_iff.mp h3.1
      exact hrep ' ' (by rw [hys]; exact List.mem_concat_self ys ' ') rfl
  | case3 c cs h ih =>
    intro hnd hi
    rw [replaceAll, dif_neg h] at hi
    rcases List.infix_cons_iff.mp hi with hp | hi2
    · rw [List.cons_prefix_cons] at hp
      obtain ⟨t2, ht2⟩ := singleton_pref.mp hp.2
      have hh : (replaceAll (p0 :: prest) (r0 :: rrest) cs).head? = some ' ' := by
        rw [ht2]; rfl
      rcases head?_replaceAll hh with hl | ⟨he, _⟩
      · obtain ⟨t3, rfl⟩ := head?_decomp hl
        apply hnd
        apply List.IsPrefix.isInfix
        rw [List.cons_prefix_cons]
        refine ⟨hp.1, ?_⟩
        rw [List.cons_prefix_cons]
        exact ⟨rfl, List.nil_prefix⟩
      · exact absurd he.symm (hrep r0 (List.mem_cons_self r0 rrest))
    · exact ih (noDbl_tail hnd) hi2

theorem not_pref_ne {x y : Char} {xs ys : List Char} (hne : x ≠ y) :
    ¬ (x :: xs <+: y :: ys) := by
  intro hp
  rw [List.cons_prefix_cons] at hp
  exact hne hp.1

theorem P_self : ∀ {l : List Char}, NoDbl l →
    ¬ ['(', ' '] <:+: replaceAll ['(', ' '] ['('] l := by
  intro l
  induction l using replaceAll.induct ['(', ' '] ['('] with
  | case1 => intro _ hi; rw [replaceAll_nil] at hi; simp at hi
  | case2 c cs h ih =>
    intro hnd hi
    rw [replaceAll, dif_pos h, List.singleton_append] at hi
    have hd2 : List.drop (['(', ' '] : List Char).length (c :: cs) = List.drop 2 (c :: cs) := rfl
    rw [hd2] at hi ih
    rcases List.infix_cons_iff.mp hi with hp | hi2
    · rw [List.cons_prefix_cons] at hp
      obtain ⟨t2, ht2⟩ := singleton_pref.mp hp.2
      have hh : (replaceAll ['(', ' '] ['('] (List.drop 2 (c :: cs))).head? = some ' ' := by
        rw [ht2]; rfl
      rcases head?_replaceAll hh with hl | ⟨he, _⟩
      · have hpf := prefOf_iff.mp h.2
        rw [List.cons_prefix_cons] at hpf
        obtain ⟨t, rfl⟩ := singleton_pref.mp hpf.2
        simp only [List.drop_succ_cons, List.drop_zero] at hl
        obtain ⟨t3, rfl⟩ := head?_decomp hl
        apply hnd
        apply List.infix_cons
        apply List.IsPrefix.isInfix
        rw [List.cons_prefix_cons]
        exact ⟨rfl, by rw [List.cons_prefix_cons]; exact ⟨rfl, List.nil_prefix⟩⟩
      · simp at he
    · exact ih (noDbl_of_infx (drop_infx _ _) hnd) hi2
  | case3 c cs h ih =>
    intro hnd hi
    rw [replaceAll, dif_neg h] at hi
    rcases List.infix_cons_iff.mp hi with hp | hi2
    · rw [List.cons_prefix_cons] at hp
      obtain ⟨t2, ht2⟩ := singleton_pref.mp hp.2
      have hh : (replaceAll ['(', ' '] ['('] cs).head? = some ' ' := by
        rw [ht2]; rfl
      rcases head?_replaceAll hh with hl | ⟨he, _⟩
      · obtain ⟨t3, rfl⟩ := head?_decomp hl
        apply h
        refine ⟨by simp, ?_⟩
        rw [prefOf_iff, List.cons_prefix_cons]
        exact ⟨hp.1, by rw [List.cons_prefix_cons]; exact ⟨rfl, List.nil_prefix⟩⟩
      · simp at he
    · exact ih (noDbl_tail hnd) hi2

theorem Q_self : ∀ {l : List Char}, NoDbl l →
    ¬ [' ', ')'] <:+: replaceAll [' ', ')'] [')'] l := by
  intro l
  induction l using replaceAll.induct [' ', ')'] [')'] with
  | case1 => intro _ hi; rw [replaceAll_nil] at hi; simp at hi
  | case2 c cs h ih =>
    intro hnd hi
    rw [replaceAll, dif_pos h, List.singleton_append] at hi
    rcases List.infix_cons_iff.mp hi with hp | hi2
    · exact not_pref_ne (by decide) hp
    · exact ih (noDbl_of_infx (drop_infx _ _) hnd) hi2
  | case3 c cs h ih =>
    intro hnd hi
    rw [replaceAll, dif_neg h] at hi
    rcases List.infix_cons_iff.mp hi with hp | hi2
    · rw [List.cons_prefix_cons] at hp
      obtain ⟨t2, ht2⟩ := singleton_pref.mp hp.2
      have hh : (replaceAll [' ', ')'] [')'] cs).head? = some ')' := by
        rw [ht2]; rfl
      rcases head?_replaceAll hh with hl | ⟨_, hsp⟩
      · obtain ⟨t3, rfl⟩ := head?_decomp hl
        apply h
        refine ⟨by simp, ?_⟩
        rw [prefOf_iff, List.cons_prefix_cons]
        exact ⟨hp.1, by rw [List.cons_prefix_cons]; exact ⟨rfl, List.nil_prefix⟩⟩
      · obtain ⟨t3, rfl⟩ := head?_decomp hsp
        apply hnd
        apply List.IsPrefix.isInfix
        rw [List.cons_prefix_cons]
        exact ⟨hp.1, by rw [List.cons_prefix_cons]; exact ⟨rfl, List.nil_prefix⟩⟩
    · exact ih (noDbl_tail hnd) hi2

theorem pref_spB_A {cs : List Char}
    (h : [' ', 'B'] <+: replaceAll ['A', ' ', 'B'] ['A', 'B'] cs) :
    [' ', 'B'] <+: cs := by
  obtain ⟨tail, htail⟩ := h
  have hh : (replaceAll ['A', ' ', 'B'] ['A', 'B'] cs).head? = some ' ' := by
    rw [← htail]; rfl
  rcases head?_replaceAll hh with hl | ⟨he, _⟩
  · obtain ⟨t3, rfl⟩ := head?_decomp hl
    rw [replaceAll_cons, if_neg (by
      intro hbr
      have := prefOf_iff.mp hbr.2
      rw [List.cons_prefix_cons] at this
      exact absurd this.1 (by decide))] at htail
    simp only [List.cons_append] at htail
    have htl : 'B' :: tail = replaceAll ['A', ' ', 'B'] ['A', 'B'] t3 := by
      have := congrArg List.tail htail
      simpa using this
    have hh2 : (replaceAll ['A', ' ', 'B'] ['A', 'B'] t3).head? = some 'B' := by
      rw [← htl]; rfl
    rcases head?_replaceAll hh2 with hl2 | ⟨he2, _⟩
    · obtain ⟨t4, rfl⟩ := head?_decomp hl2
      rw [List.cons_prefix_cons]
      exact ⟨rfl, by rw [List.cons_prefix_cons]; exact ⟨rfl, List.nil_prefix⟩⟩
    · simp at he2
  · simp at he

theorem pref_spB_E {cs : List Char}
    (h : [' ', 'B'] <+: replaceAll ['E', ' ', 'B'] ['E', 'B'] cs) :
    [' ', 'B'] <+: cs := by
  obtain ⟨tail, htail⟩ := h
  have hh : (replaceAll ['E', ' ', 'B'] ['E', 'B'] cs).head? = some ' ' := by
    rw [← htail]; rfl
  rcases head?_replaceAll hh with hl | ⟨he, _⟩
  · obtain ⟨t3, rfl⟩ := head?_decomp hl
    rw [replaceAll_cons, if_neg (by
      intro hbr
      have := prefOf_iff.mp hbr.2
      rw [List.cons_prefix_cons] at this
      exact absurd this.1 (by decide))] at htail
    simp only [List.cons_append] at htail
    have htl : 'B' :: tail = replaceAll ['E', ' ', 'B'] ['E', 'B'] t3 := by
      have := congrArg List.tail htail
      simpa using this
    have hh2 : (replaceAll ['E', ' ', 'B'] ['E', 'B'] t3).head? = some 'B' := by
      rw [← htl]; rfl
    rcases head?_replaceAll hh2 with hl2 | ⟨he2, _⟩
    · obtain ⟨t4, rfl⟩ := head?_decomp hl2
      rw [List.cons_prefix_cons]
      exact ⟨rfl, by rw [List.cons_prefix_cons]; exact ⟨rfl, List.nil_prefix⟩⟩
    · simp at he2
  · simp at he

theorem A_self : ∀ {l : List Char},
    ¬ ['A', ' ', 'B'] <:+: replaceAll ['A', ' ', 'B'] ['A', 'B'] l := by
  intro l
  induction l using replaceAll.induct ['A', ' ', 'B'] ['A', 'B'] with
  | case1 => intro hi; rw [replaceAll_nil] at hi; simp at hi
  | case2 c cs h ih =>
    intro hi
    rw [replaceAll, dif_pos h] at hi
    simp only [List.cons_append, List.nil_append] at hi
    rcases List.infix_cons_iff.mp hi with hp | hi2
    · rw [List.cons_prefix_cons] at hp
      exact not_pref_ne (by decide) hp.2
    · rcases List.infix_cons_iff.mp hi2 with hp | hi3
      · exact not_pref_ne (by decide) hp
      · exact ih hi3
  | case3 c cs h ih =>
    intro hi
    rw [replaceAll, dif_neg h] at hi
    rcases List.infix_cons_iff.mp hi with hp | hi2
    · rw [List.cons_prefix_cons] at hp
      have hcs := pref_spB_A hp.2
      obtain ⟨tail, htail⟩ := hcs
      apply h
      refine ⟨by simp, ?_⟩
      rw [prefOf_iff, List.cons_prefix_cons]
      refine ⟨hp.1, ?_⟩
      rw [← htail]
      exact ⟨tail, rfl⟩
    · exact ih hi2

theorem E_self : ∀ {l : List Char},
    ¬ ['E', ' ', 'B'] <:+: replaceAll ['E', ' ', 'B'] ['E', 'B'] l := by
  intro l
  induction l using replaceAll.induct ['E', ' ', 'B'] ['E', 'B'] with
  | case1 => intro hi; rw [replaceAll_nil] at hi; simp at hi
  | case2 c cs h ih =>
    intro hi
    rw [replaceAll, dif_pos h] at hi
    simp only [List.cons_append, List.nil_append] at hi
    rcases List.infix_cons_iff.mp hi with hp | hi2
    · rw [List.cons_prefix_cons] at hp
      exact not_pref_ne (by decide) hp.2
    · rcases List.infix_cons_iff.mp hi2 with hp | hi3
      · exact not_pref_ne (by decide) hp
      · exact ih hi3
  | case3 c cs h ih =>
    intro hi
    rw [replaceAll, dif_neg h] at hi
    rcases List.infix_cons_iff.mp hi with hp | hi2
    · rw [List.cons_prefix_cons] at hp
      have hcs := pref_spB_E hp.2
      obtain ⟨tail, htail⟩ := hcs
      apply h
      refine ⟨by simp, ?_⟩
      rw [prefOf_iff, List.cons_prefix_cons]
      refine ⟨hp.1, ?_⟩
      rw [← htail]
      exact ⟨tail, rfl⟩
    · exact ih hi2

theorem pres_opSp_Q : ∀ {l : List Char}, ¬ ['(', ' '] <:+: l →
    ¬ ['(', ' '] <:+: replaceAll [' ', ')'] [')'] l := by
  intro l
  induction l using replaceAll.induct [' ', ')'] [')'] with
  | case1 => intro _ hi; rw [replaceAll_nil] at hi; simp at hi
  | case2 c cs h ih =>
    intro hq hi
    rw [replaceAll, dif_pos h, List.singleton_append] at hi
    rcases List.infix_cons_iff.mp hi with hp | hi2
    · exact not_pref_ne (by decide) hp
    · exact ih (not_infx_drop _ hq) hi2
  | case3 c cs h ih =>
    intro hq hi
    rw [replaceAll, dif_neg h] at hi
    rcases List.infix_cons_iff.mp hi with hp | hi2
    · rw [List.cons_prefix_cons] at hp
      obtain ⟨t2, ht2⟩ := singleton_pref.mp hp.2
      have hh : (replaceAll [' ', ')'] [')'] cs).head? = some ' ' := by
        rw [ht2]; rfl
      rcases head?_replaceAll hh with hl | ⟨he, _⟩
      · obtain ⟨t3, rfl⟩ := head?_decomp hl
        apply hq
        apply List.IsPrefix.isInfix
        rw [List.cons_prefix_cons]
        exact ⟨hp.1, by rw [List.cons_prefix_cons]; exact ⟨rfl, List.nil_prefix⟩⟩
      · simp at he
    · exact ih (not_infx_tail hq) hi2

theorem pres_opSp_A : ∀ {l : List Char}, ¬ ['(', ' '] <:+: l →
    ¬ ['(', ' '] <:+: replaceAll ['A', ' ', 'B'] ['A', 'B'] l := by
  intro l
  induction l using replaceAll.induct ['A', ' ', 'B'] ['A', 'B'] with
  | case1 => intro _ hi; rw [replaceAll_nil] at hi; simp at hi
  | case2 c cs h ih =>
    intro hq hi
    rw [replaceAll, dif_pos h] at hi
    simp only [List.cons_append, List.nil_append] at hi
    rcases List.infix_cons_iff.mp hi with hp | hi2
    · exact not_pref_ne (by decide) hp
    · rcases List.infix_cons_iff.mp hi2 with hp | hi3
      · exact not_pref_ne (by decide) hp
      · exact ih (not_infx_drop _ hq) hi3
  | case3 c cs h ih =>
    intro hq hi
    rw [replaceAll, dif_neg h] at hi
    rcases List.infix_cons_iff.mp hi with hp | hi2
    · rw [List.cons_prefix_cons] at hp
      obtain ⟨t2, ht2⟩ := singleton_pref.mp hp.2
      have hh : (replaceAll ['A', ' ', 'B'] ['A', 'B'] cs).head? = some ' ' := by
        rw [ht2]; rfl
      rcases head?_replaceAll hh with hl | ⟨he, _⟩
      · obtain ⟨t3, rfl⟩ := head?_decomp hl
        apply hq
        apply List.IsPrefix.isInfix
        rw [List.cons_prefix_cons]
        exact ⟨hp.1, by rw [List.cons_prefix_cons]; exact ⟨rfl, List.nil_prefix⟩⟩
      · simp at he
    · exact ih (not_infx_tail hq) hi2

theorem pres_opSp_E : ∀ {l : List Char}, ¬ ['(', ' '] <:+: l →
    ¬ ['(', ' '] <:+: replaceAll ['E', ' ', 'B'] ['E', 'B'] l := by
  intro l
  induction l using replaceAll.induct ['E', ' ', 'B'] ['E', 'B'] with
  | case1 => intro _ hi; rw [replaceAll_nil] at hi; simp at hi
  | case2 c cs h ih =>
    intro hq hi
    rw [replaceAll, dif_pos h] at hi
    simp only [List.cons_append, List.nil_append] at hi
    rcases List.infix_cons_iff.mp hi with hp | hi2
    · exact not_pref_ne (by decide) hp
    · rcases List.infix_cons_iff.mp hi2 with hp | hi3
      · exact not_pref_ne (by decide) hp
      · exact ih (not_infx_drop _ hq) hi3
  | case3 c cs h ih =>
    intro hq hi
    rw [replaceAll, dif_neg h] at hi
    rcases List.infix_cons_iff.mp hi with hp | hi2
    · rw [List.cons_prefix_cons] at hp
      obtain ⟨t2, ht2⟩ := singleton_pref.mp hp.2
      have hh : (replaceAll ['E', ' ', 'B'] ['E', 'B'] cs).head? = some ' ' := by
        rw [ht2]; rfl
      rcases head?_replaceAll hh with hl | ⟨he, _⟩
      · obtain ⟨t3, rfl⟩ := head?_decomp hl
        apply hq
        apply List.IsPrefix.isInfix
        rw [List.cons_prefix_cons]
        exact ⟨hp.1, by rw [List.cons_prefix_cons]; exact ⟨rfl, List.nil_prefix⟩⟩
      · simp at he
    · exact ih (not_infx_tail hq) hi2

theorem pres_spCl_A : ∀ {l : List Char}, ¬ [' ', ')'] <:+: l →
    ¬ [' ', ')'] <:+: replaceAll ['A', ' ', 'B'] ['A', 'B'] l := by
  intro l
  induction l using replaceAll.induct ['A', ' ', 'B'] ['A', 'B'] with
  | case1 => intro _ hi; rw [replaceAll_nil] at hi; simp at hi
  | case2 c cs h ih =>
    intro hq hi
    rw [replaceAll, dif_pos h] at hi
    simp only [List.cons_append, List.nil_append] at hi
    rcases List.infix_cons_iff.mp hi with hp | hi2
    · exact not_pref_ne (by decide) hp
    · rcases List.infix_cons_iff.mp hi2 with hp | hi3
      · exact not_pref_ne (by decide) hp
      · exact ih (not_infx_drop _ hq) hi3
  | case3 c cs h ih =>
    intro hq hi
    rw [replaceAll, dif_neg h] at hi
    rcases List.infix_cons_iff.mp hi with hp | hi2
    · rw [List.cons_prefix_cons] at hp
      obtain ⟨t2, ht2⟩ := singleton_pref.mp hp.2
      have hh : (replaceAll ['A', ' ', 'B'] ['A', 'B'] cs).head? = some ')' := by
        rw [ht2]; rfl
      rcases head?_replaceAll hh with hl | ⟨he, _⟩
      · obtain ⟨t3, rfl⟩ := head?_decomp hl
        apply hq
        apply List.IsPrefix.isInfix
        rw [List.cons_prefix_cons]
        exact ⟨hp.1, by rw [List.cons_prefix_cons]; exact ⟨rfl, List.nil_prefix⟩⟩
      · simp at he
    · exact ih (not_infx_tail hq) hi2

theorem pres_spCl_E : ∀ {l : List Char}, ¬ [' ', ')'] <:+: l →
    ¬ [' ', ')'] <:+: replaceAll ['E', ' ', 'B'] ['E', 'B'] l := by
  intro l
  induction l using replaceAll.induct ['E', ' ', 'B'] ['E', 'B'] with
  | case1 => intro _ hi; rw [replaceAll_nil] at hi; simp at hi
  | case2 c cs h ih =>
    intro hq hi
    rw [replaceAll, dif_pos h] at hi
    simp only [List.cons_append, List.nil_append] at hi
    rcases List.infix_cons_iff.mp hi with hp | hi2
    · exact not_pref_ne (by decide) hp
    · rcases List.infix_cons_iff.mp hi2 with hp | hi3
      · exact not_pref_ne (by decide) hp
      · exact ih (not_infx_drop _ hq) hi3
  | case3 c cs h ih =>
    intro hq hi
    rw [replaceAll, dif_neg h] at hi
    rcases List.infix_cons_iff.mp hi with hp | hi2
    · rw [List.cons_prefix_cons] at hp
      obtain ⟨t2, ht2⟩ := singleton_pref.mp hp.2
      have hh : (replaceAll ['E', ' ', 'B'] ['E', 'B'] cs).head? = some ')' := by
        rw [ht2]; rfl
      rcases head?_replaceAll hh with hl | ⟨he, _⟩
      · obtain ⟨t3, rfl⟩ := head?_decomp hl
        apply hq
        apply List.IsPrefix.isInfix
        rw [List.cons_prefix_cons]
        exact ⟨hp.1, by rw [List.cons_prefix_cons]; exact ⟨rfl, List.nil_prefix⟩⟩
      · simp at he
    · exact ih (not_infx_tail hq) hi2

theorem pres_aB_E : ∀ {l : List Char}, ¬ ['A', ' ', 'B'] <:+: l →
    ¬ ['A', ' ', 'B'] <:+: replaceAll ['E', ' ', 'B'] ['E', 'B'] l := by
  intro l
  induction l using replaceAll.induct ['E', ' ', 'B'] ['E', 'B'] with
  | case1 => intro _ hi; rw [replaceAll_nil] at hi; simp at hi
  | case2 c cs h ih =>
    intro hq hi
    rw [replaceAll, dif_pos h] at hi
    simp only [List.cons_append, List.nil_append] at hi
    rcases List.infix_cons_iff.mp hi with hp | hi2
    · exact not_pref_ne (by decide) hp
    · rcases List.infix_cons_iff.mp hi2 with hp | hi3
      · exact not_pref_ne (by decide) hp
      · exact ih (not_infx_drop _ hq) hi3
  | case3 c cs h ih =>
    intro hq hi
    rw [replaceAll, dif_neg h] at hi
    rcases List.infix_cons_iff.mp hi with hp | hi2
    · rw [List.cons_prefix_cons] at hp
      have hcs := pref_spB_E hp.2
      apply hq
      apply List.IsPrefix.isInfix
      rw [List.cons_prefix_cons]
      exact ⟨hp.1, hcs⟩
    · exact ih (not_infx_tail hq) hi2

theorem spOnly_replaceAll {pat rep : List Char}
    (hrep : ∀ c ∈ rep, c.isWhitespace = true → c = ' ') {l : List Char}
    (hl : SpOnly l) : SpOnly (replaceAll pat rep l) := by
  intro c hc hw
  rcases mem_replaceAll hc with hm | hm
  · exact hl c hm hw
  · exact hrep c hm hw

theorem noLow_replaceAll {pat rep : List Char}
    (hrep : ∀ c ∈ rep, c.toUpper = c) {l : List Char}
    (hl : NoLow l) : NoLow (replaceAll pat rep l) := by
  intro c hc
  rcases mem_replaceAll hc with hm | hm
  · exact hl c hm
  · exact hrep c hm

theorem noLow_collapse {b : Bool} {l : List Char} (hl : NoLow l) :
    NoLow (collapseWsAux b l) := by
  intro c hc
  rcases mem_collapse hc with he | hm
  · rw [he]; decide
  · exact hl c hm

theorem spOnly_of_infx {l m : List Char} (h : l <:+: m) (hm : SpOnly m) : SpOnly l :=
  fun c hc => hm c (h.subset hc)

theorem noLow_of_infx {l m : List Char} (h : l <:+: m) (hm : NoLow m) : NoLow l :=
  fun c hc => hm c (h.subset hc)

theorem not_infx_of_infx {q l m : List Char} (h : l <:+: m) (hm : ¬ q <:+: m) :
    ¬ q <:+: l := fun hq => hm (hq.trans h)

theorem cleanProps (l : List Char) :
    NoLow (cleanChars l) ∧ SpOnly (cleanChars l) ∧ NoDbl (cleanChars l) ∧
      ¬ ['(', ' '] <:+: cleanChars l ∧ ¬ [' ', ')'] <:+: cleanChars l ∧
      ¬ ['A', ' ', 'B'] <:+: cleanChars l ∧ ¬ ['E', ' ', 'B'] <:+: cleanChars l := by
  rw [cleanChars]
  set w := collapseWs (pyUpper l) with hw
  have wNoLow : NoLow w := noLow_collapse (noLow_pyUpper l)
  have wSp : SpOnly w := spOnly_collapse false (pyUpper l)
  have wDbl : NoDbl w := noDbl_collapse false (pyUpper l)
  set p := replaceAll ['(', ' '] ['('] w with hp
  have pNoLow : NoLow p := noLow_replaceAll (by decide) wNoLow
  have pSp : SpOnly p := spOnly_replaceAll (by decide) wSp
  have pDbl : NoDbl p := noDbl_replaceAll (by decide) wDbl
  have pOp : ¬ ['(', ' '] <:+: p := P_self wDbl
  set q := replaceAll [' ', ')'] [')'] p with hq
  have qNoLow : NoLow q := noLow_replaceAll (by decide) pNoLow
  have qSp : SpOnly q := spOnly_replaceAll (by decide) pSp
  have qDbl : NoDbl q := noDbl_replaceAll (by decide) pDbl
  have qOp : ¬ ['(', ' '] <:+: q := pres_opSp_Q pOp
  have qCl : ¬ [' ', ')'] <:+: q := Q_self pDbl
  set a := replaceAll ['A', ' ', 'B'] ['A', 'B'] q with ha
  have aNoLow : NoLow a := noLow_replaceAll (by decide) qNoLow
  have aSp : SpOnly a := spOnly_replaceAll (by decide) qSp
  have aDbl : NoDbl a := noDbl_replaceAll (by decide) qDbl
  have aOp : ¬ ['(', ' '] <:+: a := pres_opSp_A qOp
  have aCl : ¬ [' ', ')'] <:+: a := pres_spCl_A qCl
  have aAB : ¬ ['A', ' ', 'B'] <:+: a := A_self
  set e := replaceAll ['E', ' ', 'B'] ['E', 'B'] a with he
  have eNoLow : NoLow e := noLow_replaceAll (by decide) aNoLow
  have eSp : SpOnly e := spOnly_replaceAll (by decide) aSp
  have eDbl : NoDbl e := noDbl_replaceAll (by decide) aDbl
  have eOp : ¬ ['(', ' '] <:+: e := pres_opSp_E aOp
  have eCl : ¬ [' ', ')'] <:+: e := pres_spCl_E aCl
  have eAB : ¬ ['A', ' ', 'B'] <:+: e := pres_aB_E aAB
  have eEB : ¬ ['E', ' ', 'B'] <:+: e := E_self
  have hsi := stripChars_infx e
  exact ⟨noLow_of_infx hsi eNoLow, spOnly_of_infx hsi eSp,
    noDbl_of_infx hsi eDbl, not_infx_of_infx hsi eOp, not_infx_of_infx hsi eCl,
    not_infx_of_infx hsi eAB, not_infx_of_infx hsi eEB⟩

theorem cleanChars_fix {y : List Char}
    (h : NoLow y ∧ SpOnly y ∧ NoDbl y ∧ ¬ ['(', ' '] <:+: y ∧ ¬ [' ', ')'] <:+: y ∧
      ¬ ['A', ' ', 'B'] <:+: y ∧ ¬ ['E', ' ', 'B'] <:+: y) :
    cleanChars y = stripChars y := by
  obtain ⟨h1, h2, h3, h4, h5, h6, h7⟩ := h
  rw [cleanChars, pyUpper_eq_self h1, collapse_eq_self h2 h3,
    replaceAll_eq_self h4, replaceAll_eq_self h5, replaceAll_eq_self h6,
    replaceAll_eq_self h7]

theorem cleanChars_idem (l : List Char) : cleanChars (cleanChars l) = cleanChars l := by
  rw [cleanChars_fix (cleanProps l)]
  rw [cleanChars]
  exact stripChars_idem _

theorem mem_dedupSort {a : String} {l : List String} : a ∈ dedupSort l ↔ a ∈ l := by
  rw [dedupSort, (List.perm_insertionSort _ _).mem_iff]
  exact List.mem_dedup

theorem key_eq_some {r : Row} {d t h : String} :
    r.key = some (d, t, h) ↔ r.day = some d ∧ r.time = some t ∧ r.hall = some h := by
  cases hd : r.day with
  | none => simp [Row.key, hd]
  | some x =>
    cases ht : r.time with
    | none => simp [Row.key, hd, ht]
    | some y =>
      cases hh : r.hall with
      | none => simp [Row.key, hd, ht, hh]
      | some z => simp [Row.key, hd, ht, hh]

theorem keyCount_eq_slotCount (df : Frame) (d t h : String) :
    keyCount df (d, t, h) = slotCount df d t h := by
  rw [keyCount, slotCount, List.count_filterMap]
  apply List.countP_congr
  intro r _
  rw [beq_iff_eq]
  by_cases hk : r.key = some (d, t, h)
  · simp [hk, key_eq_some.mp hk]
  · have hnc : ¬(r.day = some d ∧ r.time = some t ∧ r.hall = some h) :=
      fun hc => hk (key_eq_some.mpr hc)
    simp [hk, hnc]

theorem mem_conflictKeys {df : Frame} {d t h : String} :
    (d, t, h) ∈ conflictKeys df ↔ 2 ≤ slotCount df d t h := by
  rw [conflictKeys, List.mem_filter]
  constructor
  · intro ⟨_, hc⟩
    have := of_decide_eq_true hc
    rw [keyCount_eq_slotCount] at this
    omega
  · intro hc
    have hk : 1 < keyCount df (d, t, h) := by rw [keyCount_eq_slotCount]; omega
    refine ⟨?_, decide_eq_true hk⟩
    rw [groupKeys, (List.perm_insertionSort _ _).mem_iff, List.mem_dedup]
    have : 0 < (df.rows.filterMap Row.key).count (d, t, h) := by
      rw [keyCount] at hk; omega
    exact List.count_pos_iff.mp this

theorem conflictEntries_courses (df : Frame) (d t h : String) :
    (df.rows.filter fun r => decide (r.key = some (d, t, h))).map Row.course =
      slotCourses df d t h := by
  rw [slotCourses]
  congr 1
  apply List.filter_congr
  intro r _
  by_cases hk : r.key = some (d, t, h)
  · simp [hk, key_eq_some.mp hk]
  · have hnc : ¬(r.day = some d ∧ r.time = some t ∧ r.hall = some h) :=
      fun hc => hk (key_eq_some.mpr hc)
    simp [hk, hnc]

theorem detect_conflicts_eq {df : Frame} (h1 : df.hasDay = true)
    (h2 : df.hasTime = true) (h3 : df.hasHall = true) (h4 : df.hasCourse = true) :
    detect_conflicts df = .ok (conflictEntries df) := by
  rw [detect_conflicts]
  by_cases hr : df.rows.isEmpty
  · rw [if_pos hr]
    have hrows : df.rows = [] := List.isEmpty_iff.mp hr
    simp [conflictEntries, conflictKeys, groupKeys, hrows, List.insertionSort]
  · rw [if_neg hr, h1, h2, h3, h4]
    simp only [Bool.not_true, Bool.false_eq_true, if_false]
    by_cases hk : (conflictKeys df).isEmpty
    · rw [if_pos hk]
      have : conflictKeys df = [] := List.isEmpty_iff.mp hk
      simp [conflictEntries, this]
    · rw [if_neg hk]

theorem findEntry_conflictEntries (df : Frame) (d t h : String) :
    findEntry (conflictEntries df) d t h =
      if (d, t, h) ∈ conflictKeys df then
        some ⟨d, t, h, slotCourses df d t h⟩
      else none := by
  rw [conflictEntries, findEntry]
  induction conflictKeys df with
  | nil => simp
  | cons k ks ih =>
    by_cases hk : k = (d, t, h)
    · subst hk
      rw [List.map_cons, List.find?_cons_of_pos _ (by simp)]
      rw [if_pos (List.mem_cons_self _ ks)]
      rw [conflictEntries_courses]
    · rw [List.map_cons, List.find?_cons_of_neg _ (by
        simp only [decide_eq_true_eq]
        intro ⟨ha, hb, hc⟩
        apply hk
        cases k with
        | mk k1 krest =>
          cases krest with
          | mk k2 k3 => simp at ha hb hc; simp [ha, hb, hc])]
      rw [ih]
      by_cases hm : (d, t, h) ∈ ks
      · rw [if_pos hm, if_pos (List.mem_cons_of_mem k hm)]
      · rw [if_neg hm, if_neg (by
          intro hmem
          rcases List.mem_cons.mp hmem with he | hm2
          · exact hk he.symm
          · exact hm hm2)]

theorem key_none_of_hall {r : Row} (h : r.hall = none) : r.key = none := by
  cases hd : r.day with
  | none => cases ht : r.time <;> simp [Row.key, hd, ht, h]
  | some x => cases ht : r.time <;> simp [Row.key, hd, ht, h]

theorem addRow_rows (df : Frame) (r : Row) : (df.addRow r).rows = df.rows ++ [r] := rfl

theorem conflictKeys_addRow_none {df : Frame} {r : Row} (h : r.key = none) :
    conflictKeys (df.addRow r) = conflictKeys df := by
  have hfm : (df.addRow r).rows.filterMap Row.key = df.rows.filterMap Row.key := by
    rw [addRow_rows, List.filterMap_append]
    simp [h]
  simp only [conflictKeys, groupKeys, keyCount, hfm]

theorem conflictEntries_addRow_none {df : Frame} {r : Row} (h : r.key = none) :
    conflictEntries (df.addRow r) = conflictEntries df := by
  rw [conflictEntries, conflictEntries, conflictKeys_addRow_none h]
  apply List.map_congr_left
  intro k _
  have hflt : (df.addRow r).rows.filter (fun x => decide (x.key = some k)) =
      df.rows.filter fun x => decide (x.key = some k) := by
    rw [addRow_rows, List.filter_append]
    simp [h]
  rw [hflt]

theorem detect_conflicts_addRow_none {df : Frame} {r : Row}
    (h1 : df.hasDay = true) (h2 : df.hasTime = true) (h3 : df.hasHall = true)
    (hr : r.hall = none) :
    detect_conflicts (df.addRow r) = detect_conflicts df := by
  have hk := key_none_of_hall hr
  have hck : conflictKeys (df.addRow r) = conflictKeys df :=
    conflictKeys_addRow_none hk
  have hce : conflictEntries (df.addRow r) = conflictEntries df :=
    conflictEntries_addRow_none hk
  have hflags : (df.addRow r).hasDay = true ∧ (df.addRow r).hasTime = true ∧
      (df.addRow r).hasHall = true := ⟨h1, h2, h3⟩
  rw [detect_conflicts, detect_conflicts]
  have hne : ((df.addRow r).rows.isEmpty) = false := by
    rw [addRow_rows]
    simp
  rw [hne]
  simp only [Bool.false_eq_true, if_false]
  rw [hflags.1, hflags.2.1, hflags.2.2, h1, h2, h3]
  simp only [Bool.not_true, Bool.false_eq_true, if_false]
  by_cases hre : df.rows.isEmpty
  · rw [if_pos hre]
    have hrows : df.rows = [] := List.isEmpty_iff.mp hre
    have hck0 : conflictKeys (df.addRow r) = [] := by
      rw [hck]
      simp [conflictKeys, groupKeys, hrows, List.insertionSort]
    rw [hck0]
    simp
  · rw [if_neg hre, hck, hce, show (df.addRow r).hasCourse = df.hasCourse from rfl]

theorem compile_metaFree : ∀ {cs : List Char},
    (∀ c ∈ cs, isMetaChar c = false ∧ c ≠ '.') →
    compilePat cs = some (cs.map RTok.lit) := by
  intro cs h
  induction cs with
  | nil => rfl
  | cons c cs' ih =>
    have hc := h c (List.mem_cons_self c cs')
    rw [compilePat, if_neg hc.2, if_neg (by simp [hc.1])]
    rw [ih fun x hx => h x (List.mem_cons_of_mem c hx)]
    rfl

theorem matchHere_lits : ∀ {cs l : List Char},
    matchHere (cs.map RTok.lit) l = true ↔
      cs.map Char.toLower <+: l.map Char.toLower := by
  intro cs
  induction cs with
  | nil => intro l; simp [matchHere]
  | cons c cs' ih =>
    intro l
    cases l with
    | nil => simp [matchHere]
    | cons x xs =>
      rw [List.map_cons, List.map_cons, List.map_cons, matchHere]
      rw [Bool.and_eq_true, List.cons_prefix_cons]
      constructor
      · intro ⟨ht, hm⟩
        exact ⟨by simpa [tokMatch] using ht, ih.mp hm⟩
      · intro ⟨ht, hm⟩
        exact ⟨by simpa [tokMatch] using ht, ih.mpr hm⟩

theorem reSearch_lits : ∀ {l cs : List Char},
    reSearch (cs.map RTok.lit) l = true ↔
      cs.map Char.toLower <:+: l.map Char.toLower := by
  intro l
  induction l with
  | nil =>
    intro cs
    rw [reSearch, matchHere_lits]
    simp
  | cons x xs ih =>
    intro cs
    rw [reSearch, Bool.or_eq_true, matchHere_lits, ih]
    rw [List.map_cons]
    exact List.infix_cons_iff.symm

theorem get_free_halls_ok {df : Frame} {day time : String}
    {free occ : List String}
    (h : get_free_halls df day time = .ok (free, occ)) :
    (df.rows = [] ∧ free = [] ∧ occ = []) ∨
      (∃ pat, compilePat (pyStrip time).data = some pat ∧
        occ = dedupSort ((df.rows.filter fun r =>
          decide (r.day = some (pyTitle (pyStrip day))) &&
            timeMatches pat r.time).filterMap Row.hall) ∧
        free = dedupSort ((allHalls df).filter fun x => !occ.contains x)) := by
  simp only [get_free_halls] at h
  split at h
  · next hre =>
    left
    have h2 := h
    simp only [Except.ok.injEq, Prod.mk.injEq] at h2
    exact ⟨List.isEmpty_iff.mp hre, h2.1.symm, h2.2.symm⟩
  · next hre =>
    split at h
    · exact absurd h (by simp)
    · split at h
      · exact absurd h (by simp)
      · split at h
        · exact absurd h (by simp)
        · next pat hcp =>
          split at h
          · exact absurd h (by simp)
          · right
            have h2 := h
            simp only [Except.ok.injEq, Prod.mk.injEq] at h2
            obtain ⟨hfree, hocc⟩ := h2
            refine ⟨pat, hcp, hocc.symm, ?_⟩
            rw [← hocc, ← hfree]
            rfl

theorem contains_iff {x : String} {l : List String} : l.contains x = true ↔ x ∈ l :=
  List.elem_iff

theorem mem_occ_iff {df : Frame} {pat : List RTok} {d : String} {x : String} :
    x ∈ dedupSort ((df.rows.filter fun r =>
        decide (r.day = some d) && timeMatches pat r.time).filterMap Row.hall) ↔
      ∃ r ∈ df.rows, r.day = some d ∧ timeMatches pat r.time = true ∧
        r.hall = some x := by
  rw [mem_dedupSort, List.mem_filterMap]
  constructor
  · intro ⟨r, hrf, hh⟩
    obtain ⟨hr, hpred⟩ := List.mem_filter.mp hrf
    rw [Bool.and_eq_true, decide_eq_true_eq] at hpred
    exact ⟨r, hr, hpred.1, hpred.2, hh⟩
  · intro ⟨r, hr, hd, ht, hh⟩
    refine ⟨r, List.mem_filter.mpr ⟨hr, ?_⟩, hh⟩
    rw [Bool.and_eq_true, decide_eq_true_eq]
    exact ⟨hd, ht⟩

theorem filter_orderedInsert (x : String × Nat) (c : Nat) :
    ∀ (s : List (String × Nat)), List.Sorted countDesc s →
    (List.orderedInsert countDesc x s).filter (fun p => decide (p.2 = c)) =
      (x :: s).filter fun p => decide (p.2 = c) := by
  intro s
  induction s with
  | nil => intro _; rfl
  | cons b t ih =>
    intro hs
    rw [List.orderedInsert]
    by_cases hr : countDesc x b
    · rw [if_pos hr]
    · rw [if_neg hr]
      have hlt : x.2 < b.2 := by
        unfold countDesc at hr
        omega
      by_cases hx : x.2 = c
      · have hb : (b.2 = c) = False := by
          simp only [eq_iff_iff, iff_false]
          omega
        simp only [List.filter_cons, hx, hb, decide_True, decide_False,
          if_true, if_false, ih hs.of_cons]
        simp [hx]
      · simp only [List.filter_cons, hx, decide_False, if_false, ih hs.of_cons]
        simp [hx]

theorem filter_insertionSort (c : Nat) : ∀ (l : List (String × Nat)),
    (List.insertionSort countDesc l).filter (fun p => decide (p.2 = c)) =
      l.filter fun p => decide (p.2 = c) := by
  intro l
  induction l with
  | nil => rfl
  | cons x xs ih =>
    rw [List.insertionSort,
      filter_orderedInsert x c _ (List.sorted_insertionSort _ _)]
    simp only [List.filter_cons, ih]

theorem mem_value_counts {l : List String} {x : String} {c : Nat} :
    (x, c) ∈ value_counts l ↔ x ∈ l.dedup ∧ c = l.count x := by
  rw [value_counts, (List.perm_insertionSort _ _).mem_iff, List.mem_map]
  constructor
  · intro ⟨a, ha, he⟩
    rw [Prod.mk.injEq] at he
    obtain ⟨rfl, hc⟩ := he
    exact ⟨ha, hc.symm⟩
  · intro ⟨hm, hc⟩
    exact ⟨x, hm, by rw [hc]⟩

theorem value_counts_sorted (l : List String) :
    List.Sorted countDesc (value_counts l) :=
  List.sorted_insertionSort _ _

theorem filter_value_counts (l : List String) (c : Nat) :
    (value_counts l).filter (fun p => decide (p.2 = c)) =
      (l.dedup.map fun x => (x, l.count x)).filter fun p => decide (p.2 = c) := by
  rw [value_counts, filter_insertionSort]

theorem C6_clean_hall_name_idem (c : Cell) :
    clean_hall_name (clean_hall_name c) = clean_hall_name c := by
  cases c with
  | none => rfl
  | some s =>
    show some (String.mk (cleanChars (String.mk (cleanChars s.data)).data)) =
      some (String.mk (cleanChars s.data))
    rw [show (String.mk (cleanChars s.data)).data = cleanChars s.data from rfl,
      cleanChars_idem]

/-- C9: on the empty dataset (no data loaded) all four query operations
return empty lists, zero counts, or the `"N/A"` sentinels, and none raises. -/

theorem C9_empty_dataset_safety :
    (∀ day time, get_free_halls emptyFrame day time = Except.ok ([], [])) ∧
    detect_conflicts emptyFrame = Except.ok [] ∧
    chart_data emptyFrame = ([], []) ∧
    index_stats emptyFrame = ⟨0, 0, "N/A", "N/A"⟩ :=
  ⟨fun _ _ => rfl, rfl, rfl, rfl⟩

/-- C1 counterexample: two records share day `"Mon"` and time `"9"` with
null hall, yet `detect_conflicts` reports no conflict group at all — the
null-hall rows are dropped by the grouping, not reported under a null
hall. -/

theorem C1_null_hall_counterexample :
    exFrameC1.rows.length = 2 ∧
    (∀ r ∈ exFrameC1.rows, r.day = some "Mon" ∧ r.time = some "9" ∧
      r.hall = none) ∧
    detect_conflicts exFrameC1 = Except.ok [] := by decide

/-- C1 amended: records with a null lecture hall are excluded from conflict
grouping: appending a null-hall record to any dataset (with the three key
columns present) leaves the conflict report unchanged. -/

theorem C1_null_hall_amended (df : Frame) (r : Row)
    (h1 : df.hasDay = true) (h2 : df.hasTime = true) (h3 : df.hasHall = true)
    (hr : r.hall = none) :
    detect_conflicts (df.addRow r) = detect_conflicts df :=
  detect_conflicts_addRow_none h1 h2 h3 hr

/-- C1 witness: the amended statement at a concrete dataset. -/

theorem C1_null_hall_witness :
    detect_conflicts (exFrameC7.addRow exRowC7) = detect_conflicts exFrameC7 :=
  C1_null_hall_amended exFrameC7 exRowC7 rfl rfl rfl rfl

/-- C4 counterexample: a slot holding the same course code twice is still
reported as a conflict — the detector counts records, not distinct
courses. -/

theorem C4_conflict_groups_counterexample :
    detect_conflicts exFrameC4 =
      Except.ok [⟨"Mon", "9", "A", [some "CS1", some "CS1"]⟩] ∧
    (∀ r ∈ exFrameC4.rows, r.course = some "CS1") := by decide

/-- C4 amended: the conflict report lists exactly the (day, time, hall)
triples (all keys non-null) carrying two or more records, regardless of
whether the course codes are distinct. -/

theorem C4_conflict_groups_amended (df : Frame) (res : List ConflictEntry)
    (h1 : df.hasDay = true) (h2 : df.hasTime = true) (h3 : df.hasHall = true)
    (h4 : df.hasCourse = true) (hres : detect_conflicts df = Except.ok res) :
    ∀ d t h, (∃ e ∈ res, e.day = d ∧ e.time = t ∧ e.hall = h) ↔
      2 ≤ slotCount df d t h := by
  rw [detect_conflicts_eq h1 h2 h3 h4] at hres
  have hrr : conflictEntries df = res := by injection hres
  subst hrr
  intro d t h
  constructor
  · intro ⟨e, he, hd, ht, hh⟩
    rw [conflictEntries] at he
    obtain ⟨k, hk, hke⟩ := List.mem_map.mp he
    subst hke
    obtain ⟨k1, k2, k3⟩ := k
    simp only at hd ht hh
    subst hd; subst ht; subst hh
    exact mem_conflictKeys.mp hk
  · intro hcnt
    refine ⟨⟨d, t, h, slotCourses df d t h⟩, ?_, rfl, rfl, rfl⟩
    rw [conflictEntries]
    apply List.mem_map.mpr
    refine ⟨(d, t, h), mem_conflictKeys.mpr hcnt, ?_⟩
    show (⟨d, t, h, _⟩ : ConflictEntry) = _
    rw [conflictEntries_courses]

/-- C4 witness: the amended statement at the specification's own scenario
dataset. -/

theorem C4_conflict_groups_witness :
    (∃ e ∈ conflictEntries exFrameW, e.day = "Mon" ∧ e.time = "9-10" ∧
      e.hall = "AB") ↔ 2 ≤ slotCount exFrameW "Mon" "9-10" "AB" :=
  C4_conflict_groups_amended exFrameW (conflictEntries exFrameW)
    rfl rfl rfl rfl (by decide) "Mon" "9-10" "AB"

/-- C5: whenever the availability query returns, the free and occupied
lists are disjoint and together cover exactly the distinct non-null halls
of the dataset. -/

theorem C5_free_occupied_partition (df : Frame) (day time : String)
    (free occ : List String)
    (h : get_free_halls df day time = Except.ok (free, occ)) :
    (∀ x, ¬(x ∈ free ∧ x ∈ occ)) ∧
    (∀ x, (x ∈ free ∨ x ∈ occ) ↔ x ∈ allHalls df) := by
  rcases get_free_halls_ok h with ⟨hrows, rfl, rfl⟩ | ⟨pat, hcp, rfl, rfl⟩
  · have hempty : allHalls df = [] := by
      rw [allHalls, Frame.halls, hrows]
      rfl
    constructor
    · intro x hx
      exact absurd hx.1 (List.not_mem_nil x)
    · intro x
      rw [hempty]
      simp
  · constructor
    · intro x ⟨hf, ho⟩
      rw [mem_dedupSort, List.mem_filter] at hf
      have hc := hf.2
      rw [Bool.not_eq_true'] at hc
      exact absurd (contains_iff.mpr ho) (by rw [hc]; simp)
    · intro x
      constructor
      · rintro (hf | ho)
        · rw [mem_dedupSort, List.mem_filter] at hf
          exact hf.1
        · rw [mem_dedupSort, List.mem_filterMap] at ho
          obtain ⟨r, hrf, hh⟩ := ho
          rw [allHalls, mem_dedupSort]
          exact List.mem_filterMap.mpr ⟨r, (List.mem_filter.mp hrf).1, hh⟩
      · intro hall
        by_cases ho : x ∈ dedupSort ((df.rows.filter fun r =>
            decide (r.day = some (pyTitle (pyStrip day))) &&
              timeMatches pat r.time).filterMap Row.hall)
        · exact Or.inr ho
        · left
          rw [mem_dedupSort, List.mem_filter]
          refine ⟨hall, ?_⟩
          have : (dedupSort ((df.rows.filter fun r =>
              decide (r.day = some (pyTitle (pyStrip day))) &&
                timeMatches pat r.time).filterMap Row.hall)).contains x = false := by
            rw [Bool.eq_false_iff]
            intro hc
            exact ho (contains_iff.mp hc)
          rw [this]
          rfl

/-- C5 witness: the partition property at the specification's scenario
dataset and query. -/

theorem C5_free_occupied_partition_witness :
    (∀ x, ¬(x ∈ ([] : List String) ∧ x ∈ ["AB", "EB"])) ∧
    (∀ x, (x ∈ ([] : List String) ∨ x ∈ ["AB", "EB"]) ↔ x ∈ allHalls exFrameW) :=
  C5_free_occupied_partition exFrameW "Mon" "9-10" [] ["AB", "EB"] (by decide)

/-- C7 counterexample: the slot (`"Mon"`, `"9"`, null hall) is present, a
duplicate record for it is appended, yet the conflict report stays empty —
no new conflict entry appears and no course count grows. -/

theorem C7_monotonicity_counterexample :
    exRowC7.day = some "Mon" ∧ exRowC7.time = some "9" ∧ exRowC7.hall = none ∧
    (∃ r ∈ exFrameC7.rows, r.day = some "Mon" ∧ r.time = some "9" ∧
      r.hall = none) ∧
    detect_conflicts exFrameC7 = Except.ok [] ∧
    detect_conflicts (exFrameC7.addRow exRowC7) = Except.ok [] := by decide

/-- C7 amended: for a slot with a non-null hall that already has at least
one record, appending one more record for it makes the slot appear in the
conflict report with course count one larger than the old record count;
and when the slot previously held exactly one record, it did not appear in
the old report (a new conflict entry appears). -/

theorem C7_monotonicity_amended (df : Frame) (r : Row) (d t h : String)
    (h1 : df.hasDay = true) (h2 : df.hasTime = true) (h3 : df.hasHall = true)
    (h4 : df.hasCourse = true)
    (hd : r.day = some d) (ht : r.time = some t) (hh : r.hall = some h)
    (hcnt : 1 ≤ slotCount df d t h) :
    (∃ res', detect_conflicts (df.addRow r) = Except.ok res' ∧
      ∃ e ∈ res', e.day = d ∧ e.time = t ∧ e.hall = h ∧
        e.courses.length = slotCount df d t h + 1) ∧
    (slotCount df d t h = 1 →
      ∃ res, detect_conflicts df = Except.ok res ∧
        ∀ e ∈ res, ¬(e.day = d ∧ e.time = t ∧ e.hall = h)) := by
  have hsc : slotCount (df.addRow r) d t h = slotCount df d t h + 1 := by
    rw [slotCount, slotCount, addRow_rows, List.countP_append]
    simp [hd, ht, hh]
  have hcourses : slotCourses (df.addRow r) d t h =
      slotCourses df d t h ++ [r.course] := by
    rw [slotCourses, slotCourses, addRow_rows, List.filter_append,
      List.map_append]
    simp [hd, ht, hh]
  have hlen : (slotCourses df d t h).length = slotCount df d t h := by
    rw [slotCourses, List.length_map, slotCount, List.countP_eq_length_filter]
  constructor
  · refine ⟨conflictEntries (df.addRow r), detect_conflicts_eq h1 h2 h3 h4, ?_⟩
    refine ⟨⟨d, t, h, slotCourses (df.addRow r) d t h⟩, ?_, rfl, rfl, rfl, ?_⟩
    · rw [conflictEntries]
      apply List.mem_map.mpr
      refine ⟨(d, t, h), mem_conflictKeys.mpr ?_, ?_⟩
      · rw [hsc]
        omega
      · show (⟨d, t, h, _⟩ : ConflictEntry) = _
        rw [conflictEntries_courses]
    · rw [hcourses, List.length_append, hlen]
      rfl
  · intro h1cnt
    refine ⟨conflictEntries df, detect_conflicts_eq h1 h2 h3 h4, ?_⟩
    rintro e he ⟨hed, het, heh⟩
    rw [conflictEntries] at he
    obtain ⟨k, hk, hke⟩ := List.mem_map.mp he
    subst hke
    obtain ⟨k1, k2, k3⟩ := k
    simp only at hed het heh
    subst hed; subst het; subst heh
    have := mem_conflictKeys.mp hk
    omega

/-- C7 witness: the amended statement at a concrete one-record slot. -/

theorem C7_monotonicity_witness :
    (∃ res', detect_conflicts (exFrameC7w.addRow exRowC7w) = Except.ok res' ∧
      ∃ e ∈ res', e.day = "Mon" ∧ e.time = "9" ∧ e.hall = "A" ∧
        e.courses.length = slotCount exFrameC7w "Mon" "9" "A" + 1) ∧
    (slotCount exFrameC7w "Mon" "9" "A" = 1 →
      ∃ res, detect_conflicts exFrameC7w = Except.ok res ∧
        ∀ e ∈ res, ¬(e.day = "Mon" ∧ e.time = "9" ∧ e.hall = "A")) :=
  C7_monotonicity_amended exFrameC7w exRowC7w "Mon" "9" "A"
    rfl rfl rfl rfl rfl rfl rfl (by decide)

theorem get_free_halls_pos {df : Frame} {day time : String} {pat : List RTok}
    (h1 : df.hasDay = true) (h2 : df.hasTime = true) (h3 : df.hasHall = true)
    (hcp : compilePat (pyStrip time).data = some pat)
    (hre : df.rows.isEmpty = false) :
    get_free_halls df day time = Except.ok
      (dedupSort ((dedupSort df.halls).filter fun x =>
        !(dedupSort ((df.rows.filter fun r =>
          decide (r.day = some (pyTitle (pyStrip day))) &&
            timeMatches pat r.time).filterMap Row.hall)).contains x),
       dedupSort ((df.rows.filter fun r =>
          decide (r.day = some (pyTitle (pyStrip day))) &&
            timeMatches pat r.time).filterMap Row.hall)) := by
  simp only [get_free_halls, hre, h1, h2, h3, hcp, Bool.not_true,
    Bool.false_eq_true, if_false]

theorem timeMatches_lits_iff {cs : List Char} {cell : Cell} :
    timeMatches (cs.map RTok.lit) cell = true ↔
      ∃ s, cell = some s ∧ cs.map Char.toLower <:+: s.data.map Char.toLower := by
  cases cell with
  | none => simp [timeMatches]
  | some s => simp [timeMatches, reSearch_lits]

/-- C2 counterexample: with the stored time `"1x3"` the query `"1.3"` marks
hall `"A"` occupied although `"1.3"` is not a substring of `"1x3"` (the
query is a regular expression and `.` matches `x`); and a query containing
the metacharacter `(` does not return a result at all. -/

theorem C2_substring_counterexample :
    get_free_halls exFrameC2 "Mon" "1.3" = Except.ok ([], ["A"]) ∧
    (∀ r ∈ exFrameC2.rows, r.time = some "1x3") ∧
    ¬ substrCI "1.3" "1x3" ∧
    get_free_halls exFrameC2 "Mon" "(" =
      Except.error PyErr.patternUnsupported := by decide

/-- C2 amended: for query strings free of regex metacharacters, the
availability query returns, and it marks a hall occupied exactly when some
record with that non-null hall matches the title-cased trimmed query day
and stores a time containing the trimmed query as a case-insensitive
substring.  (For general query strings the trimmed query is interpreted as
a regular expression instead, and invalid patterns raise.) -/

theorem C2_substring_amended (df : Frame) (day time : String)
    (h1 : df.hasDay = true) (h2 : df.hasTime = true) (h3 : df.hasHall = true)
    (hmf : metaFree (pyStrip time)) :
    ∃ free occ, get_free_halls df day time = Except.ok (free, occ) ∧
      ∀ x, x ∈ occ ↔ ∃ r ∈ df.rows,
        r.day = some (pyTitle (pyStrip day)) ∧
        (∃ s, r.time = some s ∧ substrCI (pyStrip time) s) ∧
        r.hall = some x := by
  have hcp : compilePat (pyStrip time).data =
      some ((pyStrip time).data.map RTok.lit) := compile_metaFree hmf
  by_cases hre : df.rows.isEmpty
  · refine ⟨[], [], ?_, ?_⟩
    · rw [get_free_halls, if_pos hre]
    · intro x
      rw [List.isEmpty_iff.mp hre]
      simp
  · have hre' : df.rows.isEmpty = false := by
      revert hre
      cases df.rows.isEmpty <;> simp
    refine ⟨_, _, get_free_halls_pos h1 h2 h3 hcp hre', ?_⟩
    intro x
    rw [mem_occ_iff]
    constructor
    · intro ⟨r, hr, hdy, htm, hhl⟩
      exact ⟨r, hr, hdy, timeMatches_lits_iff.mp htm, hhl⟩
    · intro ⟨r, hr, hdy, htm, hhl⟩
      exact ⟨r, hr, hdy, timeMatches_lits_iff.mpr htm, hhl⟩

/-- C2 witness: the amended statement at a concrete dataset and the
metacharacter-free query `"1x"`. -/

theorem C2_substring_witness :
    ∃ free occ, get_free_halls exFrameC2 "Mon" "1x" = Except.ok (free, occ) ∧
      ∀ x, x ∈ occ ↔ ∃ r ∈ exFrameC2.rows,
        r.day = some (pyTitle (pyStrip "Mon")) ∧
        (∃ s, r.time = some s ∧ substrCI (pyStrip "1x") s) ∧
        r.hall = some x :=
  C2_substring_amended exFrameC2 "Mon" "1x" rfl rfl rfl (by decide)

/-- C3 counterexample: a non-empty source without a `Day` column loads
fine, but querying availability or conflicts on it raises `KeyError`
instead of treating the column as absent. -/

theorem C3_missing_columns_counterexample :
    (load_timetable exRawC3).rows ≠ [] ∧
    get_free_halls (load_timetable exRawC3) "Mon" "9" =
      Except.error (PyErr.keyError "Day") ∧
    detect_conflicts (load_timetable exRawC3) =
      Except.error (PyErr.keyError "Day") := by decide

/-- C3 amended: loading never raises on missing recognized columns and the
summary statistics treat a missing `Lecture Hall` column as absent
(zero/`"N/A"`), and querying an empty dataset never raises; but the
availability query and the conflict detector raise a `KeyError` on a
non-empty dataset that lacks a column they use (here shown for `Day`). -/

theorem C3_missing_columns_amended :
    (∀ (df : Frame) (day time : String), df.rows = [] →
      get_free_halls df day time = Except.ok ([], []) ∧
      detect_conflicts df = Except.ok []) ∧
    (∀ df : Frame, df.hasHall = false →
      index_stats df = ⟨df.rows.length, 0, "N/A", "N/A"⟩) ∧
    (∀ (df : Frame) (day time : String), df.rows ≠ [] → df.hasDay = false →
      get_free_halls df day time = Except.error (PyErr.keyError "Day") ∧
      detect_conflicts df = Except.error (PyErr.keyError "Day")) := by
  refine ⟨?_, ?_, ?_⟩
  · intro df day time hrows
    have hre : df.rows.isEmpty = true := by rw [hrows]; rfl
    constructor
    · rw [get_free_halls, if_pos hre]
    · rw [detect_conflicts, if_pos hre]
  · intro df hh
    rw [index_stats]
    simp [hh]
  · intro df day time hrows hd
    have hre : df.rows.isEmpty = false := by
      cases hrr : df.rows with
      | nil => exact absurd hrr hrows
      | cons a as => rfl
    constructor
    · rw [get_free_halls]
      simp [hre, hd]
    · rw [detect_conflicts]
      simp [hre, hd]

/-- C3 witness: the amended statement at concrete frames. -/

theorem C3_missing_columns_witness :
    (get_free_halls emptyFrame "Mon" "9" = Except.ok ([], []) ∧
      detect_conflicts emptyFrame = Except.ok []) ∧
    index_stats exFrameNoHall = ⟨exFrameNoHall.rows.length, 0, "N/A", "N/A"⟩ ∧
    (get_free_halls (load_timetable exRawC3) "Tue" "10" =
      Except.error (PyErr.keyError "Day") ∧
    detect_conflicts (load_timetable exRawC3) =
      Except.error (PyErr.keyError "Day")) :=
  ⟨C3_missing_columns_amended.1 emptyFrame "Mon" "9" rfl,
    C3_missing_columns_amended.2.1 exFrameNoHall rfl,
    C3_missing_columns_amended.2.2 (load_timetable exRawC3) "Tue" "10"
      (by decide) rfl⟩

/-- C8 counterexample: halls `"B"` and `"A"` both occur once; the claimed
hall-ascending tie-break would list `"A"` first, but the served labels keep
the first-occurrence order `["B", "A"]`. -/

theorem C8_usage_order_counterexample :
    chart_data exFrameC8 = (["B", "A"], [1, 1]) ∧
    strLtB "A" "B" = true ∧
    (["B", "A"] : List String) ≠ ["A", "B"] := by decide

/-- C8 amended: the labels/values arrays pair each distinct hall with its
occurrence count, sorted by descending count; ties keep the counting order,
which is the order of each hall's first occurrence in the dataset (not
hall-ascending). -/

theorem C8_usage_order_amended (df : Frame) (labels : List String)
    (values : List Nat) (hh : df.hasHall = true)
    (he : chart_data df = (labels, values)) :
    List.Pairwise (fun a b => b ≤ a) values ∧
    labels.length = values.length ∧
    (∀ x c, (x, c) ∈ labels.zip values ↔
      x ∈ df.halls.dedup ∧ c = df.halls.count x) ∧
    (∀ c, (labels.zip values).filter (fun p => decide (p.2 = c)) =
      (df.halls.dedup.map fun x => (x, df.halls.count x)).filter
        fun p => decide (p.2 = c)) := by
  simp only [chart_data, hh, Bool.not_true, Bool.or_false] at he
  by_cases hre : df.rows.isEmpty
  · rw [if_pos hre] at he
    have hl : labels = [] := by
      have := congrArg Prod.fst he
      simpa using this.symm
    have hv : values = [] := by
      have := congrArg Prod.snd he
      simpa using this.symm
    have hhalls : df.halls = [] := by
      rw [Frame.halls, List.isEmpty_iff.mp hre]
      rfl
    subst hl
    subst hv
    refine ⟨List.Pairwise.nil, rfl, ?_, ?_⟩
    · intro x c
      simp [hhalls]
    · intro c
      simp [hhalls]
  · rw [if_neg hre] at he
    have hl : labels = (value_counts df.halls).map Prod.fst := by
      have := congrArg Prod.fst he
      simpa using this.symm
    have hv : values = (value_counts df.halls).map Prod.snd := by
      have := congrArg Prod.snd he
      simpa using this.symm
    subst hl
    subst hv
    have hzip : ((value_counts df.halls).map Prod.fst).zip
        ((value_counts df.halls).map Prod.snd) = value_counts df.halls := by
      rw [List.zip_map']
      simp
    refine ⟨?_, by simp, ?_, ?_⟩
    · exact List.Pairwise.map Prod.snd (fun a b hab => hab)
        (value_counts_sorted df.halls)
    · intro x c
      rw [hzip]
      exact mem_value_counts
    · intro c
      rw [hzip]
      exact filter_value_counts df.halls c

/-- C8 witness: the amended statement at a concrete two-hall dataset. -/

theorem C8_usage_order_witness :
    List.Pairwise (fun a b => b ≤ a) [1, 1] ∧
    (["B", "A"] : List String).length = [1, 1].length ∧
    (∀ x c, (x, c) ∈ (["B", "A"] : List String).zip [1, 1] ↔
      x ∈ exFrameC8.halls.dedup ∧ c = exFrameC8.halls.count x) ∧
    (∀ c, ((["B", "A"] : List String).zip [1, 1]).filter
        (fun p => decide (p.2 = c)) =
      (exFrameC8.halls.dedup.map fun x => (x, exFrameC8.halls.count x)).filter
        fun p => decide (p.2 = c)) :=
  C8_usage_order_amended exFrameC8 ["B", "A"] [1, 1] rfl (by decide)

/-- C10: a source row with a missing `Day` cell loads as the literal day
string `"Nan"` (and a missing `Time` cell as `"nan"`); such values are not
filtered as nulls, so they appear in the day/time dropdown views, and a
query day `"nan"` canonicalizes to `"Nan"`, matching those records. -/

theorem C10_missing_day_nan (rf : RawFrame) (r : RawRow)
    (hD : rf.hasColumn "Day" = true) (hr : r ∈ rf.rows) (hday : r.day = none) :
    some "Nan" ∈ (load_timetable rf).rows.map Row.day ∧
    "Nan" ∈ dayOptions (load_timetable rf) ∧
    (rf.hasColumn "Time" = true → r.time = none →
      some "nan" ∈ (load_timetable rf).rows.map Row.time ∧
      "nan" ∈ timeOptions (load_timetable rf)) ∧
    pyTitle (pyStrip "nan") = "Nan" := by
  have hnan : pyTitle (pyStrip "nan") = "Nan" := by decide
  have hmemday : some "Nan" ∈ (load_timetable rf).rows.map Row.day := by
    simp only [load_timetable, List.map_map]
    apply List.mem_map.mpr
    refine ⟨r, hr, ?_⟩
    simp [Function.comp, hD, hday, cellStr, hnan]
  have hload_hasDay : (load_timetable rf).hasDay = rf.hasColumn "Day" := rfl
  refine ⟨hmemday, ?_, ?_, hnan⟩
  · rw [dayOptions, hload_hasDay, hD, if_pos rfl]
    rw [mem_dedupSort]
    obtain ⟨r2, hr2, hr2d⟩ := List.mem_map.mp hmemday
    exact List.mem_filterMap.mpr ⟨r2, hr2, hr2d⟩
  · intro hT htime
    have hmemtime : some "nan" ∈ (load_timetable rf).rows.map Row.time := by
      simp only [load_timetable, List.map_map]
      apply List.mem_map.mpr
      refine ⟨r, hr, ?_⟩
      simp only [Function.comp, hT, if_true, htime, cellStr]
      rw [show pyStrip "nan" = "nan" from by decide]
    have hload_hasTime : (load_timetable rf).hasTime = rf.hasColumn "Time" := rfl
    refine ⟨hmemtime, ?_⟩
    rw [timeOptions, hload_hasTime, hT, if_pos rfl]
    rw [mem_dedupSort]
    obtain ⟨r2, hr2, hr2t⟩ := List.mem_map.mp hmemtime
    exact List.mem_filterMap.mpr ⟨r2, hr2, hr2t⟩

/-- C10 witness: the statement at a concrete raw table whose single row has
missing `Day` and `Time` cells. -/

theorem C10_missing_day_nan_witness :
    some "Nan" ∈ (load_timetable exRawC10).rows.map Row.day ∧
    "Nan" ∈ dayOptions (load_timetable exRawC10) ∧
    (exRawC10.hasColumn "Time" = true →
      (⟨none, none, some "A", some "C"⟩ : RawRow).time = none →
      some "nan" ∈ (load_timetable exRawC10).rows.map Row.time ∧
      "nan" ∈ timeOptions (load_timetable exRawC10)) ∧
    pyTitle (pyStrip "nan") = "Nan" :=
  C10_missing_day_nan exRawC10 ⟨none, none, some "A", some "C"⟩
    (by decide) (by decide) rfl
